import Mathlib

/-!
Verification of the analyzed-IR operations and the VM processor row loop of the
powdr constraint-system compiler, against its natural-language specification.

The Lean definitions below are shallow embeddings of the Rust source:
  * `ast/src/analyzed/mod.rs`   — the `Analyzed` IR and its operations,
  * `pil_analyzer/src/pil_analyzer.rs` — name resolution,
  * `executor/src/witgen/vm_processor.rs` — the VM processor row loop.

Machine integers (`u64`/`usize`) are modelled as `Nat`; places where the Rust
code would panic (failed `assert!`, arithmetic underflow, out-of-bounds
indexing, missing map key) are modelled with `Option`/`Except`, returning
`none`/`.error` exactly when the Rust code panics.  Rust `HashMap`/`BTreeMap`
values are modelled as association lists (hash-iteration order is never
observable in the modelled operations), `BTreeSet` arguments as lists with
membership.
-/

namespace Powdr

/-- `PolynomialType` from `ast/src/analyzed/mod.rs` (derives `Ord`; the derived
order is declaration order: `Committed < Constant < Intermediate`). -/
inductive PolynomialType where
  | Committed
  | Constant
  | Intermediate
  deriving DecidableEq, Repr

/-- `PolyID { id: u64, ptype: PolynomialType }`. -/
structure PolyID where
  id : Nat
  ptype : PolynomialType
  deriving DecidableEq, Repr

/-- `SymbolKind`: polynomial of a subkind, a constant value, or other. -/
inductive SymbolKind where
  | Poly (ptype : PolynomialType)
  | Constant
  | Other
  deriving DecidableEq, Repr

/-- `SourceRef { file: String, line: usize }`. -/
structure SourceRef where
  file : String
  line : Nat
  deriving DecidableEq, Repr

/-- `Symbol` from `ast/src/analyzed/mod.rs`. -/
structure Symbol where
  id : Nat
  source : SourceRef
  absolute_name : String
  kind : SymbolKind
  degree : Nat
  length : Option Nat
  deriving DecidableEq, Repr

/-- `PolyID::from(&Symbol)`: panics (`none`) unless the symbol's kind is `Poly`. -/
def polyIdOfSymbol (s : Symbol) : Option PolyID :=
  match s.kind with
  | .Poly ptype => some ⟨s.id, ptype⟩
  | _ => none

/-- `symbol.length.unwrap_or(1)`, the number of polynomial IDs a symbol covers. -/
def symbolLength (s : Symbol) : Nat := s.length.getD 1

/-- `AlgebraicReference` from `ast/src/analyzed/mod.rs`. -/
structure AlgebraicReference where
  name : String
  poly_id : PolyID
  index : Option Nat
  next : Bool
  deriving DecidableEq, Repr

/-- `AlgebraicBinaryOperator`. -/
inductive AlgebraicBinaryOperator where
  | Add
  | Sub
  | Mul
  | Pow
  deriving DecidableEq, Repr

/-- `AlgebraicUnaryOperator`. -/
inductive AlgebraicUnaryOperator where
  | Plus
  | Minus
  deriving DecidableEq, Repr

/-- `AlgebraicExpression<T>` from `ast/src/analyzed/mod.rs`. -/
inductive AlgebraicExpression (T : Type) where
  | Reference (r : AlgebraicReference)
  | PublicReference (name : String)
  | Number (n : T)
  | BinaryOperation (left : AlgebraicExpression T) (op : AlgebraicBinaryOperator)
      (right : AlgebraicExpression T)
  | UnaryOperation (op : AlgebraicUnaryOperator) (e : AlgebraicExpression T)
  deriving DecidableEq, Repr

/-- `SelectedExpressions<Expr>` from `ast/src/parsed/mod.rs`. -/
structure SelectedExpressions (E : Type) where
  selector : Option E
  expressions : List E
  deriving DecidableEq, Repr

/-- `IdentityKind`. -/
inductive IdentityKind where
  | Polynomial
  | Plookup
  | Permutation
  | Connect
  deriving DecidableEq, Repr

/-- `Identity<Expr>` from `ast/src/analyzed/mod.rs`. -/
structure Identity (E : Type) where
  id : Nat
  kind : IdentityKind
  source : SourceRef
  left : SelectedExpressions E
  right : SelectedExpressions E
  deriving DecidableEq, Repr

/-- `StatementIdentifier`; the `Identity` payload is documented in the source as
"Index into the vector of identities." -/
inductive StatementIdentifier where
  | Definition (name : String)
  | PublicDeclaration (name : String)
  | Identity (index : Nat)
  deriving DecidableEq, Repr

/-! ### The comparison of `AlgebraicReference` (impl Ord / PartialEq)

Rust's derived `Ord` on `u64` and on fieldless enums; the handwritten
`Ord`/`PartialEq` impls for `AlgebraicReference` contain `assert!` calls that
we model by returning `none`. -/

/-- Rust `u64::cmp`. -/
def cmpNat (a b : Nat) : Ordering :=
  if a < b then .lt else if a = b then .eq else .gt

/-- Derived `Ord` for `PolynomialType` (declaration order). -/
def polynomialTypeRank : PolynomialType → Nat
  | .Committed => 0
  | .Constant => 1
  | .Intermediate => 2

/-- Derived `Ord` for `PolynomialType`. -/
def cmpPolynomialType (a b : PolynomialType) : Ordering :=
  cmpNat (polynomialTypeRank a) (polynomialTypeRank b)

/-- Derived `Ord` for `PolyID`: field `id` first, then `ptype`. -/
def cmpPolyID (a b : PolyID) : Ordering :=
  match cmpNat a.id b.id with
  | .eq => cmpPolynomialType a.ptype b.ptype
  | o => o

/-- Rust `bool::cmp` (`false < true`). -/
def cmpBool : Bool → Bool → Ordering
  | false, true => .lt
  | true, false => .gt
  | _, _ => .eq

/-- `Ord::cmp` for `AlgebraicReference`: compare `poly_id`; on equality,
`assert!(self.index.is_none() && other.index.is_none())` (modelled as `none`),
then compare `next`. -/
def cmpAlgebraicReference (a b : AlgebraicReference) : Option Ordering :=
  match cmpPolyID a.poly_id b.poly_id with
  | .eq =>
    if a.index = none ∧ b.index = none then some (cmpBool a.next b.next) else none
  | o => some o

/-- `PartialEq::eq` for `AlgebraicReference`:
`assert!(self.index.is_none() && other.index.is_none())` (modelled as `none`),
then `self.poly_id == other.poly_id && self.next == other.next`. -/
def eqAlgebraicReference (a b : AlgebraicReference) : Option Bool :=
  if a.index = none ∧ b.index = none then
    some (decide (a.poly_id = b.poly_id) && decide (a.next = b.next))
  else none

/-! ### The parsed expression language `Expression<T, Reference>`

`ast/src/parsed/mod.rs` (`Expression`) instantiated with
`ast/src/analyzed/mod.rs` (`Reference`), as used inside
`FunctionValueDefinition`.  A `MatchArm`'s pattern (`CatchAll` or
`Pattern(expr)`) is modelled as an `Option` of an expression. -/

/-- `PolynomialReference` from `ast/src/analyzed/mod.rs` (`poly_id` is filled in
in a second analysis stage, hence optional). -/
structure PolynomialReference where
  name : String
  poly_id : Option PolyID
  index : Option Nat
  deriving DecidableEq, Repr

/-- `Reference` from `ast/src/analyzed/mod.rs`. -/
inductive Reference where
  | LocalVar (i : Nat) (name : String)
  | Poly (r : PolynomialReference)
  deriving DecidableEq, Repr

/-- `BinaryOperator` from `ast/src/parsed/mod.rs`. -/
inductive BinaryOperator where
  | Add
  | Sub
  | Mul
  | Div
  | Mod
  | Pow
  | BinaryAnd
  | BinaryXor
  | BinaryOr
  | ShiftLeft
  | ShiftRight
  | LogicalOr
  | LogicalAnd
  | Less
  | LessEqual
  | Equal
  | NotEqual
  | GreaterEqual
  | Greater
  deriving DecidableEq, Repr

/-- `UnaryOperator` from `ast/src/parsed/mod.rs`. -/
inductive UnaryOperator where
  | Plus
  | Minus
  | LogicalNot
  | Next
  deriving DecidableEq, Repr

mutual

/-- `Expression<T, Reference>` from `ast/src/parsed/mod.rs`. -/
inductive PExpression (T : Type) where
  | Reference (r : Reference)
  | PublicReference (name : String)
  | Number (n : T)
  | String (s : String)
  | Tuple (items : List (PExpression T))
  | LambdaExpression (params : List String) (body : PExpression T)
  | ArrayLiteral (items : List (PExpression T))
  | BinaryOperation (left : PExpression T) (op : BinaryOperator) (right : PExpression T)
  | UnaryOperation (op : UnaryOperator) (e : PExpression T)
  | FunctionCall (id : String) (arguments : List (PExpression T))
  | FreeInput (e : PExpression T)
  | MatchExpression (scrutinee : PExpression T) (arms : List (PMatchArm T))

/-- `MatchArm<T, Reference>`; `pattern = none` models `MatchPattern::CatchAll`,
`pattern = some e` models `MatchPattern::Pattern(e)`. -/
inductive PMatchArm (T : Type) where
  | mk (pattern : Option (PExpression T)) (value : PExpression T)

end

/-- `RepeatedArray<T>`: a pattern plus the number of values this part fills. -/
structure RepeatedArray (T : Type) where
  pattern : List (PExpression T)
  size : Nat

/-- `FunctionValueDefinition<T>`. -/
inductive FunctionValueDefinition (T : Type) where
  | Mapping (e : PExpression T)
  | Array (elements : List (RepeatedArray T))
  | Query (e : PExpression T)
  | Expression (e : PExpression T)

/-- `PublicDeclaration`. -/
structure PublicDeclaration where
  id : Nat
  source : SourceRef
  name : String
  polynomial : PolynomialReference
  index : Nat
  deriving DecidableEq, Repr

/-- `Analyzed<T>`: the condensed program.  The two `HashMap`s and the
intermediate-column map are modelled as association lists. -/
structure Analyzed (T : Type) where
  definitions : List (String × Symbol × Option (FunctionValueDefinition T))
  public_declarations : List (String × PublicDeclaration)
  intermediate_columns : List (String × Symbol × AlgebraicExpression T)
  identities : List (Identity (AlgebraicExpression T))
  source_order : List StatementIdentifier

/-- `HashMap::get` on the modelled `definitions`. -/
def lookupDefinition {T : Type} (a : Analyzed T)
    (name : String) : Option (Symbol × Option (FunctionValueDefinition T)) :=
  (a.definitions.find? (fun p => p.1 = name)).map (·.2)

/-- `Analyzed::definitions_in_source_order(poly_type)`: walk `source_order` and
keep the definitions of the requested polynomial subkind. -/
def definitions_in_source_order {T : Type} (a : Analyzed T)
    (poly_type : PolynomialType) : List (Symbol × Option (FunctionValueDefinition T)) :=
  a.source_order.filterMap fun s =>
    match s with
    | .Definition name =>
      match lookupDefinition a name with
      | some (sym, d) =>
        match sym.kind with
        | .Poly ptype => if ptype = poly_type then some (sym, d) else none
        | _ => none
      | none => none
    | _ => none

/-- `Analyzed::committed_polys_in_source_order`. -/
def committed_polys_in_source_order {T : Type} (a : Analyzed T) :
    List (Symbol × Option (FunctionValueDefinition T)) :=
  definitions_in_source_order a .Committed

/-- `Analyzed::constant_polys_in_source_order`. -/
def constant_polys_in_source_order {T : Type} (a : Analyzed T) :
    List (Symbol × Option (FunctionValueDefinition T)) :=
  definitions_in_source_order a .Constant

/-- `Analyzed::declaration_type_count(poly_type)`: number of polynomials of a
subkind, with multiplicities for arrays. -/
def declaration_type_count {T : Type} (a : Analyzed T) (poly_type : PolynomialType) : Nat :=
  (a.definitions.map fun p =>
    match p.2.1.kind with
    | .Poly ptype => if ptype = poly_type then symbolLength p.2.1 else 0
    | _ => 0).sum

/-! ### `Analyzed::append_polynomial_identity` -/

/-- `Analyzed::append_polynomial_identity(identity, source)`: the new ID is
`identities.iter().map(|i| i.id).max().unwrap_or_default() + 1`; a
`Polynomial`-kind identity with the expression as left selector and empty right
side is pushed, and `StatementIdentifier::Identity(id as usize)` is pushed onto
`source_order`.  Returns the new ID together with the updated value. -/
def append_polynomial_identity {T : Type} (a : Analyzed T)
    (identity : AlgebraicExpression T) (source : SourceRef) : Nat × Analyzed T :=
  let id := (a.identities.map (·.id)).foldl max 0 + 1
  (id,
    { a with
      identities := a.identities ++
        [{ id := id
           kind := .Polynomial
           source := source
           left := { selector := some identity, expressions := [] }
           right := { selector := none, expressions := [] } }]
      source_order := a.source_order ++ [.Identity id] })

/-! ### `Analyzed::remove_identities` -/

/-- The `source_order.retain_mut` pass of `remove_identities`: `Identity`
entries whose index is in the removal set are dropped and bump `shift`; the
other `Identity` entries have `shift` subtracted from their index. -/
def shiftRetainSourceOrder (to_remove : List Nat) :
    List StatementIdentifier → Nat → List StatementIdentifier
  | [], _ => []
  | .Identity index :: rest, shift =>
    if index ∈ to_remove then shiftRetainSourceOrder to_remove rest (shift + 1)
    else .Identity (index - shift) :: shiftRetainSourceOrder to_remove rest shift
  | s :: rest, shift => s :: shiftRetainSourceOrder to_remove rest shift

/-- `Analyzed::remove_identities(to_remove)`: remove identities by index (not
ID), and shift the surviving `Identity` indices inside `source_order`. -/
def remove_identities {T : Type} (to_remove : List Nat) (a : Analyzed T) : Analyzed T :=
  { a with
    source_order := shiftRetainSourceOrder to_remove a.source_order 0
    identities := (a.identities.enum.filter (fun p => p.1 ∉ to_remove)).map (·.2) }

/-! ### `Analyzed::remove_polynomials`

The two post-order visitors of `remove_polynomials` only act at reference
nodes: they panic if a reference mentions a removed polynomial or one missing
from the replacement map, and otherwise substitute the new `PolyID`.  We model
each visitor by a total substitution (`replaceRefs…`) guarded by a check
(`hasBadRef…`) that is true exactly when the Rust visitor would panic on some
node of the expression. -/

/-- Substitute `subst` at every `AlgebraicExpression::Reference`. -/
def replaceRefsA {T : Type} (subst : PolyID → PolyID) :
    AlgebraicExpression T → AlgebraicExpression T
  | .Reference r => .Reference { r with poly_id := subst r.poly_id }
  | .PublicReference name => .PublicReference name
  | .Number n => .Number n
  | .BinaryOperation l op r => .BinaryOperation (replaceRefsA subst l) op (replaceRefsA subst r)
  | .UnaryOperation op e => .UnaryOperation op (replaceRefsA subst e)

/-- True iff some `AlgebraicExpression::Reference` node satisfies `bad`
(i.e. the Rust visitor would panic on it). -/
def hasBadRefA {T : Type} (bad : PolyID → Bool) : AlgebraicExpression T → Bool
  | .Reference r => bad r.poly_id
  | .PublicReference _ => false
  | .Number _ => false
  | .BinaryOperation l _ r => hasBadRefA bad l || hasBadRefA bad r
  | .UnaryOperation _ e => hasBadRefA bad e

mutual

/-- Substitute `subst` at every `Expression::Reference(Reference::Poly(_))`
node; a reference whose `poly_id` is `None` is left unchanged (the Rust code
maps over the `Option`). -/
def replaceRefsP {T : Type} (subst : PolyID → PolyID) : PExpression T → PExpression T
  | .Reference (.Poly r) => .Reference (.Poly { r with poly_id := r.poly_id.map subst })
  | .Reference (.LocalVar i name) => .Reference (.LocalVar i name)
  | .PublicReference name => .PublicReference name
  | .Number n => .Number n
  | .String s => .String s
  | .Tuple items => .Tuple (replaceRefsPList subst items)
  | .LambdaExpression params body => .LambdaExpression params (replaceRefsP subst body)
  | .ArrayLiteral items => .ArrayLiteral (replaceRefsPList subst items)
  | .BinaryOperation l op r => .BinaryOperation (replaceRefsP subst l) op (replaceRefsP subst r)
  | .UnaryOperation op e => .UnaryOperation op (replaceRefsP subst e)
  | .FunctionCall id args => .FunctionCall id (replaceRefsPList subst args)
  | .FreeInput e => .FreeInput (replaceRefsP subst e)
  | .MatchExpression scrutinee arms =>
    .MatchExpression (replaceRefsP subst scrutinee) (replaceRefsPArms subst arms)

/-- `replaceRefsP` on a list of expressions. -/
def replaceRefsPList {T : Type} (subst : PolyID → PolyID) :
    List (PExpression T) → List (PExpression T)
  | [] => []
  | e :: es => replaceRefsP subst e :: replaceRefsPList subst es

/-- `replaceRefsP` on match arms (both pattern expressions and values). -/
def replaceRefsPArms {T : Type} (subst : PolyID → PolyID) :
    List (PMatchArm T) → List (PMatchArm T)
  | [] => []
  | .mk none v :: rest => .mk none (replaceRefsP subst v) :: replaceRefsPArms subst rest
  | .mk (some p) v :: rest =>
    .mk (some (replaceRefsP subst p)) (replaceRefsP subst v) :: replaceRefsPArms subst rest

end

mutual

/-- True iff some `Reference::Poly` node with a filled-in `poly_id` satisfies
`bad`. -/
def hasBadRefP {T : Type} (bad : PolyID → Bool) : PExpression T → Bool
  | .Reference (.Poly r) =>
    match r.poly_id with
    | some pid => bad pid
    | none => false
  | .Reference (.LocalVar _ _) => false
  | .PublicReference _ => false
  | .Number _ => false
  | .String _ => false
  | .Tuple items => hasBadRefPList bad items
  | .LambdaExpression _ body => hasBadRefP bad body
  | .ArrayLiteral items => hasBadRefPList bad items
  | .BinaryOperation l _ r => hasBadRefP bad l || hasBadRefP bad r
  | .UnaryOperation _ e => hasBadRefP bad e
  | .FunctionCall _ args => hasBadRefPList bad args
  | .FreeInput e => hasBadRefP bad e
  | .MatchExpression scrutinee arms => hasBadRefP bad scrutinee || hasBadRefPArms bad arms

/-- `hasBadRefP` on a list of expressions. -/
def hasBadRefPList {T : Type} (bad : PolyID → Bool) : List (PExpression T) → Bool
  | [] => false
  | e :: es => hasBadRefP bad e || hasBadRefPList bad es

/-- `hasBadRefP` on match arms. -/
def hasBadRefPArms {T : Type} (bad : PolyID → Bool) : List (PMatchArm T) → Bool
  | [] => false
  | .mk none v :: rest => hasBadRefP bad v || hasBadRefPArms bad rest
  | .mk (some p) v :: rest =>
    hasBadRefP bad p || hasBadRefP bad v || hasBadRefPArms bad rest

end

/-- The visitor of `post_visit_expressions_in_identities_mut` applied to one
algebraic expression: `none` iff it would panic. -/
def visitAlgebraic {T : Type} (bad : PolyID → Bool) (subst : PolyID → PolyID)
    (e : AlgebraicExpression T) : Option (AlgebraicExpression T) :=
  if hasBadRefA bad e then none else some (replaceRefsA subst e)

/-- The visitor of `post_visit_expressions_in_definitions_mut` applied to one
parsed expression: `none` iff it would panic. -/
def visitParsed {T : Type} (bad : PolyID → Bool) (subst : PolyID → PolyID)
    (e : PExpression T) : Option (PExpression T) :=
  if hasBadRefP bad e then none else some (replaceRefsP subst e)

/-- Apply the definitions visitor to a `FunctionValueDefinition` (it visits the
expression of `Mapping`/`Query`/`Expression` and every pattern expression of
`Array`). -/
def visitFunctionValueDefinition {T : Type} (bad : PolyID → Bool)
    (subst : PolyID → PolyID) :
    FunctionValueDefinition T → Option (FunctionValueDefinition T)
  | .Mapping e => (visitParsed bad subst e).map .Mapping
  | .Query e => (visitParsed bad subst e).map .Query
  | .Expression e => (visitParsed bad subst e).map .Expression
  | .Array elements =>
    (elements.mapM fun (ra : RepeatedArray T) =>
      (ra.pattern.mapM (visitParsed bad subst)).map
        (fun pat => { ra with pattern := pat })).map .Array

/-- Apply the identities visitor to both sides of an identity. -/
def visitIdentity {T : Type} (bad : PolyID → Bool) (subst : PolyID → PolyID)
    (i : Identity (AlgebraicExpression T)) : Option (Identity (AlgebraicExpression T)) := do
  let lsel ← match i.left.selector with
    | none => pure none
    | some e => (visitAlgebraic bad subst e).map some
  let lexprs ← i.left.expressions.mapM (visitAlgebraic bad subst)
  let rsel ← match i.right.selector with
    | none => pure none
    | some e => (visitAlgebraic bad subst e).map some
  let rexprs ← i.right.expressions.mapM (visitAlgebraic bad subst)
  pure { i with
    left := { selector := lsel, expressions := lexprs }
    right := { selector := rsel, expressions := rexprs } }

/-- One step of the fold that builds the replacement map for one polynomial
subkind: removed symbols bump `shift` by their length; kept symbols are mapped
to their old ID minus `shift`.  `none` models the panics (a non-`Poly` symbol
in the list, or `u64` underflow in `poly_id.id - shift`). -/
def buildReplacementsStep {T : Type} (to_remove : List PolyID)
    (acc : Option (Nat × List (PolyID × PolyID)))
    (poly : Symbol × Option (FunctionValueDefinition T)) :
    Option (Nat × List (PolyID × PolyID)) := do
  let (shift, replacements) ← acc
  let poly_id ← polyIdOfSymbol poly.1
  if poly_id ∈ to_remove then
    pure (shift + symbolLength poly.1, replacements)
  else if poly_id.id < shift then
    none
  else
    pure (shift, replacements ++ [(poly_id, ⟨poly_id.id - shift, poly_id.ptype⟩)])

/-- The fold of `remove_polynomials` that renumbers one subkind (the counter
re-starts at zero for each subkind). -/
def buildReplacements {T : Type} (to_remove : List PolyID)
    (polys : List (Symbol × Option (FunctionValueDefinition T))) :
    Option (Nat × List (PolyID × PolyID)) :=
  polys.foldl (buildReplacementsStep to_remove) (some (0, []))

/-- `BTreeMap` lookup on the modelled replacement map. -/
def lookupRepl (replacements : List (PolyID × PolyID)) (pid : PolyID) : Option PolyID :=
  (replacements.find? (fun p => p.1 = pid)).map (·.2)

/-- The predicate under which both visitors panic: the reference points to a
removed polynomial, or its `PolyID` is absent from the replacement map. -/
def badRef (to_remove : List PolyID) (replacements : List (PolyID × PolyID))
    (pid : PolyID) : Bool :=
  decide (pid ∈ to_remove) || decide (lookupRepl replacements pid = none)

/-- The total substitution applied where the visitors do not panic. -/
def substRef (replacements : List (PolyID × PolyID)) (pid : PolyID) : PolyID :=
  (lookupRepl replacements pid).getD pid

/-- Whether a definition is dropped by `definitions.retain`: its symbol has a
`Poly` kind and its `PolyID` is in the removal set. -/
def defIsRemoved {T : Type} (to_remove : List PolyID)
    (p : String × Symbol × Option (FunctionValueDefinition T)) : Bool :=
  match p.2.1.kind with
  | .Poly ptype => decide ((⟨p.2.1.id, ptype⟩ : PolyID) ∈ to_remove)
  | _ => false

/-- `Analyzed::remove_polynomials(to_remove)`: build the per-subkind
replacement maps, map intermediate columns to themselves (asserting none of
them is removed), drop the removed definitions and their `source_order`
entries, renumber the surviving symbols, and rewrite every reference in
definitions, identities and intermediate columns.  `none` models a panic. -/
def remove_polynomials {T : Type} (to_remove : List PolyID) (a : Analyzed T) :
    Option (Analyzed T) := do
  let (_, replC) ← buildReplacements to_remove (committed_polys_in_source_order a)
  let (_, replK) ← buildReplacements to_remove (constant_polys_in_source_order a)
  let interPairs ← a.intermediate_columns.mapM (fun p => do
    let pid ← polyIdOfSymbol p.2.1
    if pid ∈ to_remove then none else pure (pid, pid))
  let replacements := replC ++ replK ++ interPairs
  let names_to_remove := (a.definitions.filter (defIsRemoved to_remove)).map (·.1)
  let keptDefs := a.definitions.filter (fun p => !defIsRemoved to_remove p)
  let source_order' := a.source_order.filter fun s =>
    match s with
    | .Definition name => !names_to_remove.contains name
    | _ => true
  let renumbered ← keptDefs.mapM (fun p =>
    match p.2.1.kind with
    | .Poly ptype =>
      let pid : PolyID := ⟨p.2.1.id, ptype⟩
      if pid ∈ to_remove then none
      else
        match lookupRepl replacements pid with
        | none => none
        | some pid' => some (p.1, { p.2.1 with id := pid'.id }, p.2.2)
    | _ => some p)
  let bad := badRef to_remove replacements
  let subst := substRef replacements
  let defs' ← renumbered.mapM (fun p =>
    match p.2.2 with
    | none => some p
    | some d => (visitFunctionValueDefinition bad subst d).map
        (fun d' => (p.1, p.2.1, some d')))
  let identities' ← a.identities.mapM (visitIdentity bad subst)
  let inter' ← a.intermediate_columns.mapM (fun p =>
    (visitAlgebraic bad subst p.2.2).map (fun e' => (p.1, p.2.1, e')))
  pure
    { definitions := defs'
      public_declarations := a.public_declarations
      intermediate_columns := inter'
      identities := identities'
      source_order := source_order' }

/-! ### Name resolution (`Driver::resolve_ref` in `pil_analyzer.rs`)

Only key membership of the `definitions` map is consulted, so the map is
modelled by its list of keys.  The `assert!(namespace.is_none())` in the first
branch is modelled by returning `none`. -/

/-- Rust `str::starts_with('%')`: the first character is `'%'`. -/
def startsWithPercent (name : String) : Bool :=
  name.data.head? = some '%'

/-- `Driver::resolve_ref(namespace, name)`. -/
def resolve_ref (definitions : List String) (current_namespace : String)
    (namespace? : Option String) (name : String) : Option String :=
  if startsWithPercent name ∨ name ∈ definitions then
    if namespace? = none then some name else none
  else if namespace? = none ∧ ("Global." ++ name) ∈ definitions then
    some ("Global." ++ name)
  else
    some ((namespace?.getD current_namespace) ++ "." ++ name)

/-! ### The VM processor (`executor/src/witgen/vm_processor.rs`)

`VmProcessor::run` drives the row loop over a `FinalizableData` arena of rows.
The row type `ρ` is abstract; the only structure the row loop itself inspects
is the list of cell values of a row (for loop detection), provided by a
function `rowValues`.  All collaborators whose internals live outside this
file's scope (`IdentityProcessor`, `QueryProcessor`, machines, the query
callback — reached through `loop_until_no_progress`, the zero-strategy
`process_identities`, `check_row_pair`, `latch_value`'s selector evaluation and
`OuterQuery::is_complete`) are abstracted as functions of a `VmEnv`.

`finalize_range` (memory compaction, does not change the rows or their number)
and `maybe_log_performance` (logging only) are omitted.

Panics are modelled by `Except`: `entryAssertion` for the `assert!` at the top
of `run`, `assertion` for every other assertion/indexing/underflow panic, and
`unsatisfiable` / `underconstrained` for the two reporting panics of
`compute_row`. -/

/-- The ways the modelled VM processor can panic. -/
inductive RunError where
  | entryAssertion
  | assertion
  | unsatisfiable
  | underconstrained
  deriving DecidableEq, Repr

/-- The `EvalValue` results `run` can return: `complete`,
`incomplete_with_constraints(…, BlockMachineLookupIncomplete)` or
`incomplete(UnknownLatch)`. -/
inductive RunReturn (α : Type) where
  | complete (assigns : List α)
  | incompleteBlockMachine (assigns : List α)
  | incompleteUnknownLatch
  deriving DecidableEq, Repr

/-- `const MAX_PERIOD: usize = 4`. -/
def MAX_PERIOD : Nat := 4

/-- The abstracted collaborators and parameters of a `VmProcessor`.
`ρ` is the row type, `V` the cell-value type, `α` the type of outer
assignments, `σ` the state of a `CompletableIdentities` list after the
fixed-point passes (threaded into the zero-strategy re-check). -/
structure VmEnv (ρ V α σ : Type) where
  degree : Nat
  row_offset : Nat
  hasOuterQuery : Bool
  rowValues : ρ → List V
  freshRow : Nat → ρ
  loopWithoutNext : Nat → List ρ → Except (List String) (List ρ × List α × σ)
  loopWithNext : Nat → List ρ → Except (List String) (List ρ × List α × σ)
  zeroWithoutNext : Nat → σ → List ρ → Except (List String) Unit
  zeroWithNext : Nat → σ → List ρ → Except (List String) Unit
  checkRowPair : Nat → ρ → Bool → List ρ → Bool
  latchEval : Nat → List ρ → Option Bool
  outerQueryComplete : Nat → List ρ → Bool

/-- Cell-wise comparison of two rows as in `rows_are_repeating`:
`a.values().zip(b.values()).all(|(a, b)| a.value == b.value)`. -/
def values_match {ρ V : Type} [DecidableEq V] (rowValues : ρ → List V) (a b : ρ) : Bool :=
  ((rowValues a).zip (rowValues b)).all fun p => decide (p.1 = p.2)

/-- Checked row access with a (possibly negative) index; `none` models the
panic of `usize` underflow or out-of-bounds indexing. -/
def getRowChecked {ρ : Type} (data : List ρ) (i : Int) : Option ρ :=
  if 0 ≤ i then data.get? i.toNat else none

/-- `Iterator::all` with propagation of panics in the predicate
(short-circuiting at the first `false`, as in Rust). -/
def allOrPanic : List Nat → (Nat → Option Bool) → Option Bool
  | [], _ => some true
  | x :: xs, f =>
    match f x with
    | none => none
    | some false => some false
    | some true => allOrPanic xs f

/-- `Iterator::find` with propagation of panics in the predicate
(short-circuiting at the first `true`, as in Rust). -/
def findOrPanic : List Nat → (Nat → Option Bool) → Except RunError (Option Nat)
  | [], _ => .ok none
  | x :: xs, f =>
    match f x with
    | none => .error .assertion
    | some true => .ok (some x)
    | some false => findOrPanic xs f

/-- `VmProcessor::rows_are_repeating(row_index)`: for `row_index ≥ MAX_PERIOD`,
find the first period in `1..MAX_PERIOD` such that for all `i ∈ 1..=period`
row `row_index - i - period` equals row `row_index - i` cell-wise. -/
def rows_are_repeating {ρ V : Type} [DecidableEq V] (rowValues : ρ → List V)
    (data : List ρ) (row_index : Nat) : Except RunError (Option Nat) :=
  if row_index < MAX_PERIOD then .ok none
  else
    findOrPanic (List.range' 1 (MAX_PERIOD - 1)) fun period =>
      allOrPanic (List.range' 1 period) fun i =>
        match getRowChecked data ((row_index : Int) - i - period),
              getRowChecked data ((row_index : Int) - i) with
        | some a, some b => some (values_match rowValues a b)
        | _, _ => none

/-- `VmProcessor::ensure_has_next_row(row_index)`:
`assert!(data.len() > row_index)`, then push a fresh row if `row_index` is the
last row of the arena. -/
def ensure_has_next_row {ρ : Type} (freshRow : Nat → ρ) (row_index : Nat)
    (data : List ρ) : Except RunError (List ρ) :=
  if data.length ≤ row_index then .error .assertion
  else if row_index = data.length - 1 then .ok (data ++ [freshRow (row_index + 1)])
  else .ok data

/-- `VmProcessor::latch_value(row_index)`: `None` unless an outer query is
present (the evaluation chain starts at `self.outer_query`). -/
def latch_value {ρ V α σ : Type} (env : VmEnv ρ V α σ) (row_index : Nat)
    (data : List ρ) : Option Bool :=
  if env.hasOuterQuery then env.latchEval row_index data else none

/-- `VmProcessor::compute_row(row_index)`: the two fixed-point passes (first
the identities without next-row reference, then those with), panicking
`unsatisfiable` on error; then, only when no outer query is present, the
re-check of both identity lists under `UnknownStrategy::Zero`, panicking
`underconstrained` on error.  Returns the updated rows and the outer
assignments collected by the passes. -/
def compute_row {ρ V α σ : Type} (env : VmEnv ρ V α σ) (row_index : Nat)
    (data : List ρ) : Except RunError (List ρ × List α) :=
  match env.loopWithoutNext row_index data with
  | .error _ => .error .unsatisfiable
  | .ok (d1, a1, s1) =>
    match env.loopWithNext row_index d1 with
    | .error _ => .error .unsatisfiable
    | .ok (d2, a2, s2) =>
      if env.hasOuterQuery then .ok (d2, a1 ++ a2)
      else
        match env.zeroWithoutNext row_index s1 d2 with
        | .error _ => .error .underconstrained
        | .ok _ =>
          match env.zeroWithNext row_index s2 d2 with
          | .error _ => .error .underconstrained
          | .ok _ => .ok (d2, a1 ++ a2)

/-- `VmProcessor::try_proposed_row(row_index, proposed_row)`: check the
proposed row (identities without next-reference on the proposed row alone,
then identities with next-reference on the previous and proposed row, both
under strategy `Zero`); on success commit it (overwrite the last row or push),
on failure re-run `ensure_has_next_row` and `compute_row` on the previous row.
The `Bool` of the result is `constraints_valid`. -/
def try_proposed_row {ρ V α σ : Type} (env : VmEnv ρ V α σ) (row_index : Nat)
    (proposed : ρ) (data : List ρ) : Except RunError (Bool × List ρ) :=
  let valid := env.checkRowPair row_index proposed false data &&
    env.checkRowPair row_index proposed true data
  if valid then
    if data.length = 0 then .error .assertion
    else if row_index = data.length - 1 then .ok (true, data.set row_index proposed)
    else if row_index = data.length then .ok (true, data ++ [proposed])
    else .error .assertion
  else
    if row_index = 0 then .error .assertion
    else
      match ensure_has_next_row env.freshRow (row_index - 1) data with
      | .error e => .error e
      | .ok d1 =>
        match compute_row env (row_index - 1) d1 with
        | .error e => .error e
        | .ok (d2, _) => .ok (false, d2)

/-- The loop-detection step at the top of a row-loop iteration: when not in
looping mode and `row_index` is a positive multiple of 100, run
`rows_are_repeating`. -/
def detectionStep {ρ V α σ : Type} (env : VmEnv ρ V α σ) [DecidableEq V]
    (looping_period : Option Nat) (data : List ρ) (row_index : Nat) :
    Except RunError (Option Nat) :=
  if looping_period = none ∧ row_index % 100 = 0 ∧ row_index > 0 then
    rows_are_repeating env.rowValues data row_index
  else .ok looping_period

/-- The looping-mode part of a row-loop iteration: propose `data[row_index -
period]` and run `try_proposed_row`; on verification failure leave looping
mode.  Returns the looping period for the rest of the iteration and the
updated rows. -/
def loopingPhase {ρ V α σ : Type} (env : VmEnv ρ V α σ) (row_index : Nat)
    (looping_period : Option Nat) (data : List ρ) :
    Except RunError (Option Nat × List ρ) :=
  match looping_period with
  | none => .ok (none, data)
  | some period =>
    if row_index < period then .error .assertion
    else
      match data.get? (row_index - period) with
      | none => .error .assertion
      | some proposed =>
        match try_proposed_row env row_index proposed data with
        | .error e => .error e
        | .ok (valid, d') => .ok ((if valid then some period else none), d')

/-- Outcome of the normal-mode part of an iteration: an early return out of
`run`, or the state to continue with. -/
inductive StepOutcome (ρ α : Type) where
  | ret (value : RunReturn α) (data : List ρ)
  | next (data : List ρ) (outer_assignments : List α)

/-- The normal-mode part of an iteration: `ensure_has_next_row`,
`compute_row`, then evaluate the latch; on latch 1 return `complete` or
`incomplete(BlockMachineLookupIncomplete)`, on an unknown latch with an outer
query present return `incomplete(UnknownLatch)`. -/
def normalPhase {ρ V α σ : Type} (env : VmEnv ρ V α σ) (row_index : Nat)
    (outer_assignments : List α) (data : List ρ) :
    Except RunError (StepOutcome ρ α) :=
  match ensure_has_next_row env.freshRow row_index data with
  | .error e => .error e
  | .ok d1 =>
    match compute_row env row_index d1 with
    | .error e => .error e
    | .ok (d2, assigns) =>
      let oa := outer_assignments ++ assigns
      match latch_value env row_index d2 with
      | some true =>
        if env.outerQueryComplete row_index d2 then .ok (.ret (.complete oa) d2)
        else .ok (.ret (.incompleteBlockMachine oa) d2)
      | some false => .ok (.next d2 oa)
      | none =>
        if env.hasOuterQuery then .ok (.ret .incompleteUnknownLatch d2)
        else .ok (.next d2 oa)

/-- The row loop of `VmProcessor::run`, by remaining iteration count.  When the
loop is exhausted, `assert_eq!(data.len() + row_offset, degree + 1)` and return
`EvalValue::complete`.  The normal-mode phase is skipped in looping mode and in
the very last iteration. -/
def runLoop {ρ V α σ : Type} [DecidableEq V] (env : VmEnv ρ V α σ) :
    Nat → Nat → List ρ → Option Nat → List α →
    Except RunError (RunReturn α × List ρ)
  | 0, _, data, _, outer_assignments =>
    if data.length + env.row_offset = env.degree + 1 then
      .ok (.complete outer_assignments, data)
    else .error .assertion
  | remaining + 1, row_index, data, looping_period, outer_assignments =>
    match detectionStep env looping_period data row_index with
    | .error e => .error e
    | .ok lp =>
      match loopingPhase env row_index lp data with
      | .error e => .error e
      | .ok (lp', d') =>
        if lp' = none ∧ remaining ≠ 0 then
          match normalPhase env row_index outer_assignments d' with
          | .error e => .error e
          | .ok (.ret value d2) => .ok (value, d2)
          | .ok (.next d2 oa') => runLoop env remaining (row_index + 1) d2 none oa'
        else runLoop env remaining (row_index + 1) d' lp' outer_assignments

/-- `VmProcessor::run`: `assert!(data.len() == 1)` at entry, then the row loop
over `rows_left = degree - row_offset + 1` iterations (the subtraction would
underflow-panic for `row_offset > degree`).  The final rows are returned with
the `EvalValue` (in the source they remain in `self.data`, observable through
`finish`). -/
def run {ρ V α σ : Type} [DecidableEq V] (env : VmEnv ρ V α σ) (data : List ρ) :
    Except RunError (RunReturn α × List ρ) :=
  if data.length ≠ 1 then .error .entryAssertion
  else if env.degree < env.row_offset then .error .assertion
  else runLoop env (env.degree - env.row_offset + 1) 0 data none []

/-! ## Generic lemmas about the panic-propagating iterator combinators -/

/-- When the predicate never panics on the list, `allOrPanic` is `List.all`. -/
theorem allOrPanic_eq_all (l : List Nat) (f : Nat → Option Bool) (g : Nat → Bool)
    (h : ∀ x ∈ l, f x = some (g x)) : allOrPanic l f = some (l.all g) := by
  induction l with
  | nil => rfl
  | cons x xs ih =>
    have hx := h x (by simp)
    have hxs := ih (fun y hy => h y (by simp [hy]))
    cases hg : g x with
    | false => simp [allOrPanic, hx, hg]
    | true => simp [allOrPanic, hx, hg, hxs]

/-- When the predicate never panics on the list, `findOrPanic` is `List.find?`. -/
theorem findOrPanic_eq_find (l : List Nat) (f : Nat → Option Bool) (g : Nat → Bool)
    (h : ∀ x ∈ l, f x = some (g x)) : findOrPanic l f = .ok (l.find? g) := by
  induction l with
  | nil => rfl
  | cons x xs ih =>
    have hx := h x (by simp)
    have hxs := ih (fun y hy => h y (by simp [hy]))
    cases hg : g x with
    | false => simp [findOrPanic, hx, hg, hxs, List.find?]
    | true => simp [findOrPanic, hx, hg, List.find?]

/-! ## C6 — `remove_identities` -/

/-- The `Identity` indices listed in a `source_order`, in order. -/
def identityEntries : List StatementIdentifier → List Nat :=
  List.filterMap fun s =>
    match s with
    | .Identity i => some i
    | _ => none

/-- The non-`Identity` entries of a `source_order`, in order. -/
def nonIdentityEntries : List StatementIdentifier → List StatementIdentifier :=
  List.filterMap fun s =>
    match s with
    | .Identity _ => none
    | s => some s

/-- Whether an index survives `remove_identities`. -/
def keptIdx (to_remove : List Nat) (i : Nat) : Bool := !decide (i ∈ to_remove)

/-- The number of removed indices strictly below `j`. -/
def removedBelow (to_remove : List Nat) (j : Nat) : Nat :=
  ((List.range j).filter (fun i => decide (i ∈ to_remove))).length

/-- `removedBelow` grows by one exactly at removed indices. -/
theorem removedBelow_succ (to_remove : List Nat) (j : Nat) :
    removedBelow to_remove (j + 1) =
      removedBelow to_remove j + (if j ∈ to_remove then 1 else 0) := by
  unfold removedBelow
  rw [List.range_succ j, List.filter_append]
  by_cases h : j ∈ to_remove <;> simp [h]

/-- `shiftRetainSourceOrder` leaves non-`Identity` entries untouched. -/
theorem shiftRetain_non_identity (to_remove : List Nat) :
    ∀ (so : List StatementIdentifier) (shift : Nat),
      nonIdentityEntries (shiftRetainSourceOrder to_remove so shift) =
        nonIdentityEntries so := by
  intro so
  induction so with
  | nil => intro shift; rfl
  | cons s rest ih =>
    intro shift
    cases s with
    | Definition name =>
      show StatementIdentifier.Definition name ::
          nonIdentityEntries (shiftRetainSourceOrder to_remove rest shift) = _
      rw [ih shift]
      rfl
    | PublicDeclaration name =>
      show StatementIdentifier.PublicDeclaration name ::
          nonIdentityEntries (shiftRetainSourceOrder to_remove rest shift) = _
      rw [ih shift]
      rfl
    | Identity idx =>
      by_cases h : idx ∈ to_remove
      · show nonIdentityEntries (shiftRetainSourceOrder to_remove (.Identity idx :: rest) shift) = _
        rw [show shiftRetainSourceOrder to_remove (.Identity idx :: rest) shift =
          shiftRetainSourceOrder to_remove rest (shift + 1) by
            simp [shiftRetainSourceOrder, h]]
        rw [ih (shift + 1)]
        rfl
      · show nonIdentityEntries (shiftRetainSourceOrder to_remove (.Identity idx :: rest) shift) = _
        rw [show shiftRetainSourceOrder to_remove (.Identity idx :: rest) shift =
          .Identity (idx - shift) :: shiftRetainSourceOrder to_remove rest shift by
            simp [shiftRetainSourceOrder, h]]
        show nonIdentityEntries (shiftRetainSourceOrder to_remove rest shift) = _
        rw [ih shift]
        rfl

/-- The `Identity` entries produced by the `retain_mut` pass: when the entries
of `so` are the consecutive indices `j, j+1, …`, the surviving entries are the
kept indices, each decreased by the number of removed indices before it. -/
theorem shiftRetain_entries (to_remove : List Nat) :
    ∀ (so : List StatementIdentifier) (j k : Nat),
      identityEntries so = List.range' j k →
      identityEntries (shiftRetainSourceOrder to_remove so (removedBelow to_remove j)) =
        ((List.range' j k).filter (keptIdx to_remove)).map
          (fun i => i - removedBelow to_remove i) := by
  intro so
  induction so with
  | nil =>
    intro j k h
    have hk : k = 0 := by
      by_contra hk
      obtain ⟨k', rfl⟩ := Nat.exists_eq_succ_of_ne_zero hk
      rw [List.range'_succ j k' 1] at h
      exact List.noConfusion h
    subst hk
    rfl
  | cons s rest ih =>
    intro j k h
    cases s with
    | Definition name =>
      have hrest : identityEntries rest = List.range' j k := h
      simp only [shiftRetainSourceOrder]
      exact ih j k hrest
    | PublicDeclaration name =>
      have hrest : identityEntries rest = List.range' j k := h
      simp only [shiftRetainSourceOrder]
      exact ih j k hrest
    | Identity idx =>
      have hcons : idx :: identityEntries rest = List.range' j k := h
      cases k with
      | zero => exact List.noConfusion hcons
      | succ k' =>
        rw [List.range'_succ j k' 1] at hcons
        obtain ⟨hidx, hrest⟩ := List.cons.inj hcons
        subst hidx
        by_cases hmem : idx ∈ to_remove
        · have hshift : removedBelow to_remove idx + 1 = removedBelow to_remove (idx + 1) := by
            rw [removedBelow_succ]
            simp [hmem]
          simp only [shiftRetainSourceOrder, if_pos hmem, hshift]
          rw [List.range'_succ idx k' 1, List.filter_cons,
            show keptIdx to_remove idx = false by simp [keptIdx, hmem]]
          simpa using ih (idx + 1) k' hrest
        · have hshift : removedBelow to_remove (idx + 1) = removedBelow to_remove idx := by
            rw [removedBelow_succ]
            simp [hmem]
          simp only [shiftRetainSourceOrder, if_neg hmem]
          rw [List.range'_succ idx k' 1, List.filter_cons,
            show keptIdx to_remove idx = true by simp [keptIdx, hmem]]
          have hrec := ih (idx + 1) k' hrest
          rw [hshift] at hrec
          show (idx - removedBelow to_remove idx) ::
              identityEntries (shiftRetainSourceOrder to_remove rest
                (removedBelow to_remove idx)) = _
          rw [hrec]
          simp

/-- Renumbering the kept indices of `0, …, n-1` by subtracting the removed
count below each yields exactly `0, …, m-1` where `m` is the kept count. -/
theorem range_filter_renumber (to_remove : List Nat) :
    ∀ n : Nat,
      ((List.range n).filter (keptIdx to_remove)).map
          (fun i => i - removedBelow to_remove i) =
        List.range (((List.range n).filter (keptIdx to_remove)).length) := by
  intro n
  induction n with
  | zero => rfl
  | succ n ih =>
    rw [List.range_succ n, List.filter_append, List.map_append]
    by_cases h : n ∈ to_remove
    · rw [show (List.filter (keptIdx to_remove) [n]) = [] by simp [keptIdx, h]]
      simpa using ih
    · rw [show (List.filter (keptIdx to_remove) [n]) = [n] by simp [keptIdx, h]]
      have hpart : removedBelow to_remove n +
          ((List.range n).filter (keptIdx to_remove)).length = n := by
        have h2 : (List.range n).length =
            ((List.range n).filter (fun i => decide (i ∈ to_remove))).length +
            ((List.range n).filter (fun i => !decide (i ∈ to_remove))).length :=
          List.length_eq_length_filter_add _
        have hkept : ((List.range n).filter (keptIdx to_remove)).length =
            ((List.range n).filter (fun i => !decide (i ∈ to_remove))).length := rfl
        have hrb : removedBelow to_remove n =
            ((List.range n).filter (fun i => decide (i ∈ to_remove))).length := rfl
        simp only [List.length_range] at h2
        omega
      rw [List.length_append, ih]
      simp only [List.map_cons, List.map_nil, List.length_cons, List.length_nil]
      rw [show n - removedBelow to_remove n =
        ((List.range n).filter (keptIdx to_remove)).length by omega]
      rw [show ((List.range n).filter (keptIdx to_remove)).length + (0 + 1) =
        ((List.range n).filter (keptIdx to_remove)).length + 1 by omega]
      exact (List.range_succ _).symm

/-- The `retain`-with-counter pass over the identities vector picks exactly the
elements at kept indices, in order. -/
theorem enumFrom_filter_map {T : Type} (to_remove : List Nat) :
    ∀ (l : List T) (i : Nat),
      ((List.enumFrom i l).filter (fun p => decide (p.1 ∉ to_remove))).map (·.2) =
        ((List.range' i l.length).filter (keptIdx to_remove)).filterMap
          (fun j => l.get? (j - i)) := by
  intro l
  induction l with
  | nil => intro i; rfl
  | cons x xs ih =>
    intro i
    rw [show List.enumFrom i (x :: xs) = (i, x) :: List.enumFrom (i + 1) xs from rfl,
      List.filter_cons,
      show (List.range' i (x :: xs).length) = i :: List.range' (i + 1) xs.length by
        rw [List.length_cons]; exact List.range'_succ i xs.length 1,
      List.filter_cons]
    have hcongr : ((List.range' (i + 1) xs.length).filter (keptIdx to_remove)).filterMap
        (fun j => (x :: xs).get? (j - i)) =
        ((List.range' (i + 1) xs.length).filter (keptIdx to_remove)).filterMap
        (fun j => xs.get? (j - (i + 1))) := by
      apply List.filterMap_congr
      intro j hj
      have hmem := List.mem_range'_1.mp (List.mem_of_mem_filter hj)
      rw [show j - i = (j - (i + 1)) + 1 by omega]
      rfl
    by_cases h : i ∈ to_remove
    · rw [show (decide ((i, x).1 ∉ to_remove)) = false by simp [h],
        show keptIdx to_remove i = false by simp [keptIdx, h]]
      simp only [Bool.false_eq_true, if_false]
      rw [ih (i + 1), hcongr]
    · rw [show (decide ((i, x).1 ∉ to_remove)) = true by simp [h],
        show keptIdx to_remove i = true by simp [keptIdx, h]]
      simp only [if_true]
      rw [List.filterMap_cons,
        show (x :: xs).get? (i - i) = some x by simp]
      rw [List.map_cons, ih (i + 1), hcongr]

/-- `filterMap get?` over in-bounds indices keeps the length. -/
theorem filterMap_get_length {β : Type} (l : List β) :
    ∀ (js : List Nat), (∀ j ∈ js, j < l.length) →
      (js.filterMap l.get?).length = js.length := by
  intro js
  induction js with
  | nil => intro h; rfl
  | cons j rest ih =>
    intro h
    have hj : j < l.length := h j (by simp)
    rw [List.filterMap_cons, List.get?_eq_get hj]
    simp only [List.length_cons]
    rw [ih (fun a ha => h a (by simp [ha]))]

/-- C6: `remove_identities(I)` removes exactly the identities at the indices
in `I` and keeps the remaining identities (with their records and thus their
IDs untouched) in order; every surviving `Identity(index)` entry of
`source_order` is rewritten by subtracting the number of removed identities
that precede it, so that the surviving entries are exactly `0, …, m-1` in
order — each referring to the same identity as before; all other fields and
entries are unchanged.  The hypothesis is the structural invariant that the
`Identity` entries of `source_order` list the identity indices `0, …, n-1` in
order. -/
theorem remove_identities_spec {T : Type} (to_remove : List Nat) (a : Analyzed T)
    (hso : identityEntries a.source_order = List.range a.identities.length) :
    (remove_identities to_remove a).identities =
      ((List.range a.identities.length).filter (keptIdx to_remove)).filterMap
        a.identities.get? ∧
    identityEntries (remove_identities to_remove a).source_order =
      ((identityEntries a.source_order).filter (keptIdx to_remove)).map
        (fun i => i - removedBelow to_remove i) ∧
    identityEntries (remove_identities to_remove a).source_order =
      List.range (remove_identities to_remove a).identities.length ∧
    nonIdentityEntries (remove_identities to_remove a).source_order =
      nonIdentityEntries a.source_order ∧
    (remove_identities to_remove a).definitions = a.definitions ∧
    (remove_identities to_remove a).public_declarations = a.public_declarations ∧
    (remove_identities to_remove a).intermediate_columns = a.intermediate_columns := by
  have hA : (remove_identities to_remove a).identities =
      ((List.range a.identities.length).filter (keptIdx to_remove)).filterMap
        a.identities.get? := by
    show ((a.identities.enum.filter (fun p => p.1 ∉ to_remove)).map (·.2)) = _
    rw [show a.identities.enum = List.enumFrom 0 a.identities from rfl,
      enumFrom_filter_map to_remove a.identities 0, ← List.range_eq_range']
    apply List.filterMap_congr
    intro j _
    rw [Nat.sub_zero]
  have hB : identityEntries (remove_identities to_remove a).source_order =
      ((List.range a.identities.length).filter (keptIdx to_remove)).map
        (fun i => i - removedBelow to_remove i) := by
    show identityEntries (shiftRetainSourceOrder to_remove a.source_order 0) = _
    rw [show (0 : Nat) = removedBelow to_remove 0 from rfl]
    rw [shiftRetain_entries to_remove a.source_order 0 a.identities.length
      (by rw [hso, List.range_eq_range']), ← List.range_eq_range']
  refine ⟨hA, by rw [hB, hso], ?_, shiftRetain_non_identity to_remove a.source_order 0,
    rfl, rfl, rfl⟩
  rw [hB, range_filter_renumber, hA,
    filterMap_get_length a.identities _ (fun j hj => by
      have := List.mem_of_mem_filter hj
      exact List.mem_range.mp this)]

/-! ## C8 — `remove_polynomials` on the empty set

Well-formedness of an `Analyzed` value (each claim about `remove_polynomials`
quantifies over values satisfying the data-model invariants): intermediate
columns carry `Poly`-kind symbols, every `Poly`-kind definition's `PolyID` is
among the declared keys (it appears in `source_order`, directly or as an
intermediate), and every polynomial reference in definitions, identities and
intermediate columns points to a declared key. -/

/-- The identity replacement pairs built by `remove_polynomials(∅)`: every
committed and constant polynomial in source order, and every intermediate
column, mapped to itself. -/
def nilReplacements {T : Type} (a : Analyzed T) : List (PolyID × PolyID) :=
  ((committed_polys_in_source_order a).filterMap
    (fun p => (polyIdOfSymbol p.1).map (fun pid => (pid, pid)))) ++
  ((constant_polys_in_source_order a).filterMap
    (fun p => (polyIdOfSymbol p.1).map (fun pid => (pid, pid)))) ++
  (a.intermediate_columns.filterMap
    (fun p => (polyIdOfSymbol p.2.1).map (fun pid => (pid, pid))))

/-- The declared polynomial keys of an `Analyzed` value. -/
def polyKeys {T : Type} (a : Analyzed T) : List PolyID :=
  (nilReplacements a).map (·.1)

/-- The key-membership check the visitors of `remove_polynomials(∅)` perform
on one reference. -/
def refNotDeclared {T : Type} (a : Analyzed T) (pid : PolyID) : Bool :=
  !decide (pid ∈ polyKeys a)

/-- No undeclared reference in an optional definition value. -/
def defValueRefsOk {T : Type} (a : Analyzed T) :
    Option (FunctionValueDefinition T) → Bool
  | none => true
  | some (.Mapping e) => !hasBadRefP (refNotDeclared a) e
  | some (.Query e) => !hasBadRefP (refNotDeclared a) e
  | some (.Expression e) => !hasBadRefP (refNotDeclared a) e
  | some (.Array elements) =>
    elements.all fun ra => ra.pattern.all fun e => !hasBadRefP (refNotDeclared a) e

/-- No undeclared reference in an identity. -/
def identityRefsOk {T : Type} (a : Analyzed T)
    (i : Identity (AlgebraicExpression T)) : Bool :=
  (match i.left.selector with
    | none => true
    | some e => !hasBadRefA (refNotDeclared a) e) &&
  (i.left.expressions.all fun e => !hasBadRefA (refNotDeclared a) e) &&
  (match i.right.selector with
    | none => true
    | some e => !hasBadRefA (refNotDeclared a) e) &&
  (i.right.expressions.all fun e => !hasBadRefA (refNotDeclared a) e)

/-- `List.mapM` in the `Option` monad of a function that fixes every element. -/
theorem mapM_some_id {β : Type} (f : β → Option β) :
    ∀ l : List β, (∀ x ∈ l, f x = some x) → l.mapM f = some l := by
  intro l
  induction l with
  | nil => intro h; rfl
  | cons x xs ih =>
    intro h
    rw [List.mapM_cons, h x (by simp), ih (fun y hy => h y (by simp [hy]))]
    rfl

/-- Members of `definitions_in_source_order a pt` have kind `Poly pt`. -/
theorem definitions_in_source_order_kind {T : Type} (a : Analyzed T)
    (pt : PolynomialType) :
    ∀ p ∈ definitions_in_source_order a pt, p.1.kind = .Poly pt := by
  intro p hp
  rcases List.mem_filterMap.mp hp with ⟨s, _, hm⟩
  cases s with
  | Definition name =>
    simp only at hm
    cases hl : lookupDefinition a name with
    | none => rw [hl] at hm; exact Option.noConfusion hm
    | some q =>
      rw [hl] at hm
      obtain ⟨sym, d⟩ := q
      simp only at hm
      cases hk : sym.kind with
      | Poly pt2 =>
        rw [hk] at hm
        simp only at hm
        by_cases hpt : pt2 = pt
        · rw [if_pos hpt] at hm
          cases hm
          rw [hk, hpt]
        · rw [if_neg hpt] at hm
          exact Option.noConfusion hm
      | Constant => rw [hk] at hm; exact Option.noConfusion hm
      | Other => rw [hk] at hm; exact Option.noConfusion hm
  | PublicDeclaration name => exact Option.noConfusion hm
  | Identity i => exact Option.noConfusion hm

/-- `buildReplacements` on the empty removal set succeeds with zero shift and
the self-pairs of its input. -/
theorem buildReplacements_nil {T : Type} :
    ∀ (polys : List (Symbol × Option (FunctionValueDefinition T)))
      (acc : List (PolyID × PolyID)),
      (∀ p ∈ polys, ∃ pt, p.1.kind = SymbolKind.Poly pt) →
      polys.foldl (buildReplacementsStep []) (some (0, acc)) =
        some (0, acc ++ polys.filterMap
          (fun p => (polyIdOfSymbol p.1).map (fun pid => (pid, pid)))) := by
  intro polys
  induction polys with
  | nil => intro acc _; simp
  | cons p rest ih =>
    intro acc h
    obtain ⟨pt, hpt⟩ := h p (by simp)
    have hpid : polyIdOfSymbol p.1 = some ⟨p.1.id, pt⟩ := by
      unfold polyIdOfSymbol
      rw [hpt]
    have hstep : buildReplacementsStep (T := T) [] (some (0, acc)) p =
        some (0, acc ++ [(⟨p.1.id, pt⟩, ⟨p.1.id, pt⟩)]) := by
      simp [buildReplacementsStep, hpid]
    rw [List.foldl_cons, hstep, ih _ (fun q hq => h q (by simp [hq]))]
    simp [hpid]

/-- All pairs of `nilReplacements` map a key to itself. -/
theorem nilReplacements_id {T : Type} (a : Analyzed T) :
    ∀ q ∈ nilReplacements a, q.2 = q.1 := by
  intro q hq
  unfold nilReplacements at hq
  rcases List.mem_append.mp hq with hq | hq
  · rcases List.mem_append.mp hq with hq | hq <;>
    · rcases List.mem_filterMap.mp hq with ⟨p, _, hm⟩
      cases hpid : polyIdOfSymbol p.1 with
      | none => rw [hpid] at hm; exact Option.noConfusion hm
      | some pid => rw [hpid] at hm; cases hm; rfl
  · rcases List.mem_filterMap.mp hq with ⟨p, _, hm⟩
    cases hpid : polyIdOfSymbol p.2.1 with
    | none => rw [hpid] at hm; exact Option.noConfusion hm
    | some pid => rw [hpid] at hm; cases hm; rfl

/-- Lookup in a self-pair map returns the key whenever the key is present. -/
theorem lookupRepl_self {T : Type} (a : Analyzed T) (pid : PolyID)
    (hmem : pid ∈ polyKeys a) :
    lookupRepl (nilReplacements a) pid = some pid := by
  unfold lookupRepl
  cases hf : (nilReplacements a).find? (fun p => p.1 = pid) with
  | none =>
    exfalso
    rcases List.mem_map.mp hmem with ⟨q, hq, hq1⟩
    have := List.find?_eq_none.mp hf q hq
    simp [hq1] at this
  | some q =>
    have hq : q ∈ nilReplacements a := List.mem_of_find?_eq_some hf
    have hq1 : q.1 = pid := by
      have := List.find?_some hf
      simpa using this
    rw [Option.map_some']
    rw [nilReplacements_id a q hq, hq1]

/-- `substRef` over a self-pair map is the identity. -/
theorem substRef_nil_id {T : Type} (a : Analyzed T) (pid : PolyID) :
    substRef (nilReplacements a) pid = pid := by
  unfold substRef lookupRepl
  cases hf : (nilReplacements a).find? (fun p => p.1 = pid) with
  | none => rfl
  | some q =>
    have hq : q ∈ nilReplacements a := List.mem_of_find?_eq_some hf
    have hq1 : q.1 = pid := by
      have := List.find?_some hf
      simpa using this
    rw [Option.map_some']
    simp [nilReplacements_id a q hq, hq1]

/-- The panic predicate of the `remove_polynomials(∅)` visitors coincides with
the key-membership check. -/
theorem badRef_nil_eq {T : Type} (a : Analyzed T) :
    badRef [] (nilReplacements a) = refNotDeclared a := by
  funext pid
  unfold badRef refNotDeclared
  have hiff : lookupRepl (nilReplacements a) pid = none ↔ ¬ pid ∈ polyKeys a := by
    constructor
    · intro h hmem
      rw [lookupRepl_self a pid hmem] at h
      exact Option.noConfusion h
    · intro hmem
      unfold lookupRepl
      cases hf : (nilReplacements a).find? (fun p => p.1 = pid) with
      | none => rfl
      | some q =>
        exfalso
        apply hmem
        have hq : q ∈ nilReplacements a := List.mem_of_find?_eq_some hf
        have hq1 : q.1 = pid := by
          have := List.find?_some hf
          simpa using this
        exact hq1 ▸ List.mem_map_of_mem (·.1) hq
  simp [hiff]

mutual

/-- A pointwise-identity substitution fixes every parsed expression. -/
theorem replaceRefsP_id {T : Type} (subst : PolyID → PolyID)
    (hs : ∀ pid, subst pid = pid) : ∀ e : PExpression T, replaceRefsP subst e = e
  | .Reference (.Poly r) => by
    have hmap : r.poly_id.map subst = r.poly_id := by
      cases hp : r.poly_id with
      | none => rfl
      | some pid => simp [hs pid]
    simp only [replaceRefsP, hmap]
  | .Reference (.LocalVar i name) => rfl
  | .PublicReference name => rfl
  | .Number n => rfl
  | .String s => rfl
  | .Tuple items => by
    simp only [replaceRefsP]
    rw [replaceRefsPList_id subst hs items]
  | .LambdaExpression params body => by
    simp only [replaceRefsP]
    rw [replaceRefsP_id subst hs body]
  | .ArrayLiteral items => by
    simp only [replaceRefsP]
    rw [replaceRefsPList_id subst hs items]
  | .BinaryOperation l op r => by
    simp only [replaceRefsP]
    rw [replaceRefsP_id subst hs l, replaceRefsP_id subst hs r]
  | .UnaryOperation op e => by
    simp only [replaceRefsP]
    rw [replaceRefsP_id subst hs e]
  | .FunctionCall id args => by
    simp only [replaceRefsP]
    rw [replaceRefsPList_id subst hs args]
  | .FreeInput e => by
    simp only [replaceRefsP]
    rw [replaceRefsP_id subst hs e]
  | .MatchExpression scrutinee arms => by
    simp only [replaceRefsP]
    rw [replaceRefsP_id subst hs scrutinee, replaceRefsPArms_id subst hs arms]

/-- A pointwise-identity substitution fixes every expression list. -/
theorem replaceRefsPList_id {T : Type} (subst : PolyID → PolyID)
    (hs : ∀ pid, subst pid = pid) :
    ∀ l : List (PExpression T), replaceRefsPList subst l = l
  | [] => rfl
  | e :: es => by
    simp only [replaceRefsPList]
    rw [replaceRefsP_id subst hs e, replaceRefsPList_id subst hs es]

/-- A pointwise-identity substitution fixes every match-arm list. -/
theorem replaceRefsPArms_id {T : Type} (subst : PolyID → PolyID)
    (hs : ∀ pid, subst pid = pid) :
    ∀ l : List (PMatchArm T), replaceRefsPArms subst l = l
  | [] => rfl
  | .mk none v :: rest => by
    simp only [replaceRefsPArms]
    rw [replaceRefsP_id subst hs v, replaceRefsPArms_id subst hs rest]
  | .mk (some p) v :: rest => by
    simp only [replaceRefsPArms]
    rw [replaceRefsP_id subst hs p, replaceRefsP_id subst hs v,
      replaceRefsPArms_id subst hs rest]

end

/-- A pointwise-identity substitution fixes every algebraic expression. -/
theorem replaceRefsA_id {T : Type} (subst : PolyID → PolyID)
    (hs : ∀ pid, subst pid = pid) : ∀ e : AlgebraicExpression T, replaceRefsA subst e = e
  | .Reference r => by simp [replaceRefsA, hs r.poly_id]
  | .PublicReference name => rfl
  | .Number n => rfl
  | .BinaryOperation l op r => by
    simp only [replaceRefsA]
    rw [replaceRefsA_id subst hs l, replaceRefsA_id subst hs r]
  | .UnaryOperation op e => by
    simp only [replaceRefsA]
    rw [replaceRefsA_id subst hs e]

/-- The parsed-expression visitor of `remove_polynomials(∅)` fixes every
expression whose references are declared. -/
theorem visitParsed_nil_id {T : Type} (a : Analyzed T) (e : PExpression T)
    (hok : hasBadRefP (refNotDeclared a) e = false) :
    visitParsed (refNotDeclared a) (substRef (nilReplacements a)) e = some e := by
  unfold visitParsed
  rw [hok]
  simp only [Bool.false_eq_true, if_false]
  rw [replaceRefsP_id _ (substRef_nil_id a) e]

/-- The algebraic visitor of `remove_polynomials(∅)` fixes every expression
whose references are declared. -/
theorem visitAlgebraic_nil_id {T : Type} (a : Analyzed T) (e : AlgebraicExpression T)
    (hok : hasBadRefA (refNotDeclared a) e = false) :
    visitAlgebraic (refNotDeclared a) (substRef (nilReplacements a)) e = some e := by
  unfold visitAlgebraic
  rw [hok]
  simp only [Bool.false_eq_true, if_false]
  rw [replaceRefsA_id _ (substRef_nil_id a) e]

/-- The definitions visitor of `remove_polynomials(∅)` fixes every definition
value whose references are declared. -/
theorem visitFVD_nil_id {T : Type} (a : Analyzed T) (d : FunctionValueDefinition T)
    (hok : defValueRefsOk a (some d) = true) :
    visitFunctionValueDefinition (refNotDeclared a) (substRef (nilReplacements a)) d =
      some d := by
  cases d with
  | Mapping e =>
    have h : hasBadRefP (refNotDeclared a) e = false := by
      simpa [defValueRefsOk] using hok
    simp [visitFunctionValueDefinition, visitParsed_nil_id a e h]
  | Query e =>
    have h : hasBadRefP (refNotDeclared a) e = false := by
      simpa [defValueRefsOk] using hok
    simp [visitFunctionValueDefinition, visitParsed_nil_id a e h]
  | Expression e =>
    have h : hasBadRefP (refNotDeclared a) e = false := by
      simpa [defValueRefsOk] using hok
    simp [visitFunctionValueDefinition, visitParsed_nil_id a e h]
  | Array elements =>
    have h : ∀ ra ∈ elements, ∀ e ∈ ra.pattern,
        hasBadRefP (refNotDeclared a) e = false := by
      simpa [defValueRefsOk] using hok
    have hmapm : elements.mapM (fun (ra : RepeatedArray T) =>
        (ra.pattern.mapM (visitParsed (refNotDeclared a)
          (substRef (nilReplacements a)))).map
          (fun pat => { ra with pattern := pat })) = some elements := by
      apply mapM_some_id
      intro ra hra
      have hpat : ra.pattern.mapM (visitParsed (refNotDeclared a)
          (substRef (nilReplacements a))) = some ra.pattern :=
        mapM_some_id _ _ (fun e he => visitParsed_nil_id a e (h ra hra e he))
      rw [hpat]
      rfl
    show (elements.mapM fun (ra : RepeatedArray T) =>
        (ra.pattern.mapM (visitParsed (refNotDeclared a)
          (substRef (nilReplacements a)))).map
          (fun pat => { ra with pattern := pat })).map FunctionValueDefinition.Array =
      some (FunctionValueDefinition.Array elements)
    rw [hmapm]
    rfl

/-- The identities visitor of `remove_polynomials(∅)` fixes every identity
whose references are declared. -/
theorem visitIdentity_nil_id {T : Type} (a : Analyzed T)
    (i : Identity (AlgebraicExpression T)) (hok : identityRefsOk a i = true) :
    visitIdentity (refNotDeclared a) (substRef (nilReplacements a)) i = some i := by
  obtain ⟨iid, ikind, isrc, ⟨lsel, lexprs⟩, ⟨rsel, rexprs⟩⟩ := i
  unfold identityRefsOk at hok
  simp only [Bool.and_eq_true] at hok
  obtain ⟨⟨⟨h1, h2⟩, h3⟩, h4⟩ := hok
  have hlexprs : lexprs.mapM (visitAlgebraic (refNotDeclared a)
      (substRef (nilReplacements a))) = some lexprs :=
    mapM_some_id _ _ (fun e he => visitAlgebraic_nil_id a e
      (by simpa using (List.all_eq_true).mp h2 e he))
  have hrexprs : rexprs.mapM (visitAlgebraic (refNotDeclared a)
      (substRef (nilReplacements a))) = some rexprs :=
    mapM_some_id _ _ (fun e he => visitAlgebraic_nil_id a e
      (by simpa using (List.all_eq_true).mp h4 e he))
  have hlexprs2 : List.mapM.loop (visitAlgebraic (refNotDeclared a)
      (substRef (nilReplacements a))) lexprs [] = some lexprs := hlexprs
  have hrexprs2 : List.mapM.loop (visitAlgebraic (refNotDeclared a)
      (substRef (nilReplacements a))) rexprs [] = some rexprs := hrexprs
  cases lsel with
  | none =>
    cases rsel with
    | none =>
      simp [visitIdentity, hlexprs, hrexprs, hlexprs2, hrexprs2]
    | some er =>
      have her : hasBadRefA (refNotDeclared a) er = false := by simpa using h3
      simp [visitIdentity, hlexprs, hrexprs, hlexprs2, hrexprs2, visitAlgebraic_nil_id a er her]
  | some el =>
    have hel : hasBadRefA (refNotDeclared a) el = false := by simpa using h1
    cases rsel with
    | none =>
      simp [visitIdentity, hlexprs, hrexprs, hlexprs2, hrexprs2, visitAlgebraic_nil_id a el hel]
    | some er =>
      have her : hasBadRefA (refNotDeclared a) er = false := by simpa using h3
      simp [visitIdentity, hlexprs, hrexprs, hlexprs2, hrexprs2, visitAlgebraic_nil_id a el hel,
        visitAlgebraic_nil_id a er her]

/-- Nothing is removed by the empty removal set. -/
theorem defIsRemoved_nil {T : Type}
    (p : String × Symbol × Option (FunctionValueDefinition T)) :
    defIsRemoved [] p = false := by
  unfold defIsRemoved
  cases p.2.1.kind <;> simp

/-- The intermediate-column pass of `remove_polynomials(∅)` succeeds and
produces the self-pairs of the intermediate `PolyID`s. -/
theorem mapM_interPairs_nil {T : Type} :
    ∀ (l : List (String × Symbol × AlgebraicExpression T)),
      (∀ p ∈ l, ∃ pt, p.2.1.kind = SymbolKind.Poly pt) →
      l.mapM (fun p => do
        let pid ← polyIdOfSymbol p.2.1
        if pid ∈ ([] : List PolyID) then none else pure (pid, pid)) =
      some (l.filterMap (fun p => (polyIdOfSymbol p.2.1).map (fun pid => (pid, pid)))) := by
  intro l
  induction l with
  | nil => intro h; rfl
  | cons p rest ih =>
    intro h
    obtain ⟨pt, hpt⟩ := h p (by simp)
    have hpid : polyIdOfSymbol p.2.1 = some ⟨p.2.1.id, pt⟩ := by
      unfold polyIdOfSymbol
      rw [hpt]
    rw [List.mapM_cons, ih (fun q hq => h q (by simp [hq]))]
    simp [hpid]

/-- C8. `remove_polynomials(∅)` is the identity on every structurally
well-formed `Analyzed` value: intermediate symbols have `Poly` kind, every
`Poly`-kind definition's `PolyID` is declared (listed through `source_order`
or as an intermediate column), and every reference in definition values,
identities and intermediate expressions points to a declared `PolyID`.  On
such a value the empty removal builds the identity replacement map, removes
nothing, renumbers every symbol to its own ID, and rewrites every reference
to itself, returning the input unchanged (no panic). -/
theorem remove_polynomials_nil_id {T : Type} (a : Analyzed T)
    (hInter : ∀ p ∈ a.intermediate_columns, ∃ pt, p.2.1.kind = SymbolKind.Poly pt)
    (hDefIds : ∀ p ∈ a.definitions, ∀ pt, p.2.1.kind = SymbolKind.Poly pt →
      (⟨p.2.1.id, pt⟩ : PolyID) ∈ polyKeys a)
    (hDefVals : ∀ p ∈ a.definitions, defValueRefsOk a p.2.2 = true)
    (hIdents : ∀ i ∈ a.identities, identityRefsOk a i = true)
    (hInterRefs : ∀ p ∈ a.intermediate_columns,
      hasBadRefA (refNotDeclared a) p.2.2 = false) :
    remove_polynomials [] a = some a := by
  have h1 : buildReplacements ([] : List PolyID) (committed_polys_in_source_order a) =
      some (0, (committed_polys_in_source_order a).filterMap
        (fun p => (polyIdOfSymbol p.1).map (fun pid => (pid, pid)))) := by
    unfold buildReplacements
    rw [buildReplacements_nil (committed_polys_in_source_order a) []
      (fun p hp => ⟨.Committed, definitions_in_source_order_kind a .Committed p hp⟩)]
    rfl
  have h2 : buildReplacements ([] : List PolyID) (constant_polys_in_source_order a) =
      some (0, (constant_polys_in_source_order a).filterMap
        (fun p => (polyIdOfSymbol p.1).map (fun pid => (pid, pid)))) := by
    unfold buildReplacements
    rw [buildReplacements_nil (constant_polys_in_source_order a) []
      (fun p hp => ⟨.Constant, definitions_in_source_order_kind a .Constant p hp⟩)]
    rfl
  have h3 := mapM_interPairs_nil a.intermediate_columns hInter
  simp only [Option.bind_eq_bind, Option.pure_def] at h3
  have hnames : (a.definitions.filter (defIsRemoved ([] : List PolyID))).map (·.1) =
      ([] : List String) := by
    have : a.definitions.filter (defIsRemoved ([] : List PolyID)) = [] := by
      rw [List.filter_eq_nil_iff]
      intro p _
      simp [defIsRemoved_nil]
    rw [this]
    rfl
  have hkept : a.definitions.filter (fun p => !defIsRemoved ([] : List PolyID) p) =
      a.definitions := by
    rw [List.filter_eq_self]
    intro p _
    simp [defIsRemoved_nil]
  have hso : (a.source_order.filter fun s =>
      match s with
      | .Definition name => !([] : List String).contains name
      | _ => true) = a.source_order := by
    rw [List.filter_eq_self]
    intro s _
    cases s <;> rfl
  have hrepl : ((committed_polys_in_source_order a).filterMap
        (fun p => (polyIdOfSymbol p.1).map (fun pid => (pid, pid))) ++
      (constant_polys_in_source_order a).filterMap
        (fun p => (polyIdOfSymbol p.1).map (fun pid => (pid, pid))) ++
      a.intermediate_columns.filterMap
        (fun p => (polyIdOfSymbol p.2.1).map (fun pid => (pid, pid)))) =
      nilReplacements a := rfl
  have hrenum : a.definitions.mapM (fun p =>
      match p.2.1.kind with
      | SymbolKind.Poly ptype =>
        if (⟨p.2.1.id, ptype⟩ : PolyID) ∈ ([] : List PolyID) then none
        else
          match lookupRepl (nilReplacements a) ⟨p.2.1.id, ptype⟩ with
          | none => none
          | some pid' => some (p.1,
              { id := pid'.id, source := p.2.1.source,
                absolute_name := p.2.1.absolute_name, kind := p.2.1.kind,
                degree := p.2.1.degree, length := p.2.1.length }, p.2.2)
      | _ => some p) = some a.definitions := by
    apply mapM_some_id
    intro p hp
    cases hk : p.2.1.kind with
    | Poly pt =>
      have hmem := hDefIds p hp pt hk
      simp only [hk, lookupRepl_self a _ hmem, List.not_mem_nil, if_false]
      rw [← hk]
    | Constant => simp [hk]
    | Other => simp [hk]
  have hdefs : a.definitions.mapM (fun p =>
      match p.2.2 with
      | none => some p
      | some d => (visitFunctionValueDefinition (refNotDeclared a)
          (substRef (nilReplacements a)) d).map
          (fun d' => (p.1, p.2.1, some d'))) = some a.definitions := by
    apply mapM_some_id
    intro p hp
    cases hd : p.2.2 with
    | none => simp [hd]
    | some d =>
      have hok : defValueRefsOk a (some d) = true := by
        rw [← hd]; exact hDefVals p hp
      simp only [hd, visitFVD_nil_id a d hok, Option.map_some']
      rw [← hd]
  have hids : a.identities.mapM (visitIdentity (refNotDeclared a)
      (substRef (nilReplacements a))) = some a.identities :=
    mapM_some_id _ _ (fun i hi => visitIdentity_nil_id a i (hIdents i hi))
  have hinters : a.intermediate_columns.mapM (fun p =>
      (visitAlgebraic (refNotDeclared a) (substRef (nilReplacements a)) p.2.2).map
        (fun e' => (p.1, p.2.1, e'))) = some a.intermediate_columns := by
    apply mapM_some_id
    intro p hp
    simp [visitAlgebraic_nil_id a p.2.2 (hInterRefs p hp)]
  simp only [remove_polynomials, h1, h2, h3, Option.bind_eq_bind, Option.some_bind,
    hnames, hkept, hso, hrepl, badRef_nil_eq, hrenum, hdefs, hids, hinters,
    Option.pure_def]

/-- A small well-formed `Analyzed` value: one committed column `N.x` and one
polynomial identity referencing it. -/
def c8Analyzed : Analyzed Nat :=
  { definitions := [("N.x",
      { id := 0, source := ⟨"input.pil", 1⟩, absolute_name := "N.x",
        kind := .Poly .Committed, degree := 8, length := none }, none)]
    public_declarations := []
    intermediate_columns := []
    identities := [{ id := 0, kind := .Polynomial, source := ⟨"input.pil", 2⟩,
                     left := { selector := none,
                               expressions := [.Reference
                                 { name := "N.x", poly_id := ⟨0, .Committed⟩,
                                   index := none, next := false }] },
                     right := { selector := none, expressions := [] } }]
    source_order := [.Definition "N.x", .Identity 0] }

/-- Witness for C8 at a concrete input. -/
theorem remove_polynomials_nil_id_witness :
    remove_polynomials [] c8Analyzed = some c8Analyzed :=
  remove_polynomials_nil_id c8Analyzed
    (by intro p hp; exact absurd hp (List.not_mem_nil p))
    (by
      intro p hp pt hk
      simp only [c8Analyzed, List.mem_singleton] at hp
      subst hp
      simp only [c8Analyzed] at hk ⊢
      cases hk
      decide)
    (by decide)
    (by decide)
    (by intro p hp; exact absurd hp (List.not_mem_nil p))

/-! ### C4: renumbering by `remove_polynomials` on a general removal set

The fold of `buildReplacements` maps each kept symbol's ID to `id - shift`,
where `shift` is the total length of the removed symbols seen so far in
*source order*.  The kept IDs are therefore contiguous from zero exactly when
the IDs in source order are consecutive from zero (multiplicities counted) —
set-density of the IDs alone does not suffice, as the counterexample below
shows. -/

/-- The IDs of the symbols, in list order and with multiplicities, are
consecutive starting at `start`. -/
def idsConsecFrom {T : Type} :
    List (Symbol × Option (FunctionValueDefinition T)) → Nat → Bool
  | [], _ => true
  | p :: rest, start =>
    decide (p.1.id = start) && idsConsecFrom rest (start + symbolLength p.1)

/-- Total number of polynomial IDs covered by a list of symbols
(multiplicities from arrays counted). -/
def totalLen {T : Type} :
    List (Symbol × Option (FunctionValueDefinition T)) → Nat
  | [] => 0
  | p :: rest => symbolLength p.1 + totalLen rest

/-- Number of polynomial IDs covered by the removed symbols of the list. -/
def removedLen {T : Type} (S : List PolyID) :
    List (Symbol × Option (FunctionValueDefinition T)) → Nat
  | [] => 0
  | p :: rest =>
    match polyIdOfSymbol p.1 with
    | none => removedLen S rest
    | some pid => (if pid ∈ S then symbolLength p.1 else 0) + removedLen S rest

/-- The replacement pairs produced by the `buildReplacements` fold: each kept
symbol's `PolyID` maps to the same ID minus the length of the removed symbols
before it. -/
def keptPairs {T : Type} (S : List PolyID) :
    List (Symbol × Option (FunctionValueDefinition T)) → Nat → List (PolyID × PolyID)
  | [], _ => []
  | p :: rest, shift =>
    match polyIdOfSymbol p.1 with
    | none => keptPairs S rest shift
    | some pid =>
      if pid ∈ S then keptPairs S rest (shift + symbolLength p.1)
      else (pid, ⟨pid.id - shift, pid.ptype⟩) :: keptPairs S rest shift

/-- An intermediate column's symbol has a `Poly` kind and is not being
removed (otherwise the intermediate pass of `remove_polynomials` panics). -/
def interSymbolKept {T : Type} (S : List PolyID)
    (p : String × Symbol × AlgebraicExpression T) : Bool :=
  match p.2.1.kind with
  | .Poly pt => !decide ((⟨p.2.1.id, pt⟩ : PolyID) ∈ S)
  | _ => false

/-- The self-pairs contributed by the intermediate columns. -/
def interSelfPairs {T : Type} (a : Analyzed T) : List (PolyID × PolyID) :=
  a.intermediate_columns.filterMap
    (fun p => (polyIdOfSymbol p.2.1).map (fun pid => (pid, pid)))

/-- The full replacement map `remove_polynomials S` builds (committed pairs,
then constant pairs, then intermediate self-pairs). -/
def replacementsOf {T : Type} (S : List PolyID) (a : Analyzed T) :
    List (PolyID × PolyID) :=
  keptPairs S (committed_polys_in_source_order a) 0 ++
  keptPairs S (constant_polys_in_source_order a) 0 ++
  interSelfPairs a

/-- Renumber one symbol through a `PolyID` substitution (non-`Poly` symbols
are untouched). -/
def renumberSymbol (subst : PolyID → PolyID) (s : Symbol) : Symbol :=
  match s.kind with
  | .Poly pt => { s with id := (subst ⟨s.id, pt⟩).id }
  | _ => s

/-- Rewrite every reference of a definition value through a substitution. -/
def mapFVDRefs {T : Type} (subst : PolyID → PolyID) :
    FunctionValueDefinition T → FunctionValueDefinition T
  | .Mapping e => .Mapping (replaceRefsP subst e)
  | .Query e => .Query (replaceRefsP subst e)
  | .Expression e => .Expression (replaceRefsP subst e)
  | .Array elements => .Array (elements.map
      (fun ra => { ra with pattern := ra.pattern.map (replaceRefsP subst) }))

/-- Map a function over the selector and the expressions. -/
def mapSelected {E : Type} (f : E → E) (se : SelectedExpressions E) :
    SelectedExpressions E :=
  { selector := se.selector.map f, expressions := se.expressions.map f }

/-- Rewrite every reference of an identity through a substitution. -/
def mapIdentityRefs {T : Type} (subst : PolyID → PolyID)
    (i : Identity (AlgebraicExpression T)) : Identity (AlgebraicExpression T) :=
  { i with left := mapSelected (replaceRefsA subst) i.left,
           right := mapSelected (replaceRefsA subst) i.right }

/-- No reference satisfying `bad` in an optional definition value. -/
def defValueRefsOkFor {T : Type} (bad : PolyID → Bool) :
    Option (FunctionValueDefinition T) → Bool
  | none => true
  | some (.Mapping e) => !hasBadRefP bad e
  | some (.Query e) => !hasBadRefP bad e
  | some (.Expression e) => !hasBadRefP bad e
  | some (.Array elements) =>
    elements.all fun ra => ra.pattern.all fun e => !hasBadRefP bad e

/-- No reference satisfying `bad` in an identity. -/
def identityRefsOkFor {T : Type} (bad : PolyID → Bool)
    (i : Identity (AlgebraicExpression T)) : Bool :=
  (match i.left.selector with
    | none => true
    | some e => !hasBadRefA bad e) &&
  (i.left.expressions.all fun e => !hasBadRefA bad e) &&
  (match i.right.selector with
    | none => true
    | some e => !hasBadRefA bad e) &&
  (i.right.expressions.all fun e => !hasBadRefA bad e)

/-- A definition's symbol is not of the `Poly Intermediate` kind (in the
analyzer, intermediate polynomials live in `intermediate_columns`). -/
def defKindNotIntermediate {T : Type}
    (p : String × Symbol × Option (FunctionValueDefinition T)) : Bool :=
  match p.2.1.kind with
  | .Poly .Intermediate => false
  | _ => true

/-- The symbols of a given polynomial subkind in a definitions list. -/
def symsOfKindList {T : Type}
    (l : List (String × Symbol × Option (FunctionValueDefinition T)))
    (pt : PolynomialType) : List Symbol :=
  l.filterMap (fun p =>
    match p.2.1.kind with
    | .Poly pt' => if pt' = pt then some p.2.1 else none
    | _ => none)

/-- The symbols of a given polynomial subkind declared in `definitions`. -/
def symsOfKind {T : Type} (a : Analyzed T) (pt : PolynomialType) : List Symbol :=
  symsOfKindList a.definitions pt

/-- The polynomial IDs a symbol covers (its ID plus multiplicities). -/
def expandSym (s : Symbol) : List Nat :=
  (List.range (symbolLength s)).map (fun k => s.id + k)

/-- All polynomial IDs of a given subkind declared in `definitions`
(multiplicities counted). -/
def expandedIdsOfKind {T : Type} (a : Analyzed T) (pt : PolynomialType) :
    List Nat :=
  ((symsOfKind a pt).map expandSym).flatten

/-- The value `remove_polynomials S a` returns when it does not panic: the
removed definitions and their `source_order` entries are dropped, the kept
symbols are renumbered through the replacement map, and every reference in
definition values, identities and intermediate columns is rewritten through
the same map. -/
def removedResult {T : Type} (S : List PolyID) (a : Analyzed T) : Analyzed T :=
  { definitions := (a.definitions.filter (fun p => !defIsRemoved S p)).map
      (fun p => (p.1, renumberSymbol (substRef (replacementsOf S a)) p.2.1,
        p.2.2.map (mapFVDRefs (substRef (replacementsOf S a)))))
    public_declarations := a.public_declarations
    intermediate_columns := a.intermediate_columns.map
      (fun p => (p.1, p.2.1, replaceRefsA (substRef (replacementsOf S a)) p.2.2))
    identities := a.identities.map (mapIdentityRefs (substRef (replacementsOf S a)))
    source_order := a.source_order.filter (fun s =>
      match s with
      | .Definition name =>
        !(((a.definitions.filter (defIsRemoved S)).map (·.1)).contains name)
      | _ => true) }

/-- The removed IDs are at most all IDs. -/
theorem removedLen_le_totalLen {T : Type} (S : List PolyID) :
    ∀ polys : List (Symbol × Option (FunctionValueDefinition T)),
      removedLen S polys ≤ totalLen polys := by
  intro polys
  induction polys with
  | nil => simp [removedLen, totalLen]
  | cons p rest ih =>
    cases hpid : polyIdOfSymbol p.1 with
    | none =>
      simp only [removedLen, totalLen, hpid]
      omega
    | some pid =>
      simp only [removedLen, totalLen, hpid]
      by_cases hmem : pid ∈ S
      · simp only [if_pos hmem]; omega
      · simp only [if_neg hmem]; omega

/-- The `buildReplacements` fold on a list of `Poly`-kind symbols whose IDs
are consecutive in list order: it never panics, the final shift is the removed
length, and the pairs are `keptPairs`. -/
theorem buildReplacements_consec {T : Type} (S : List PolyID) :
    ∀ (polys : List (Symbol × Option (FunctionValueDefinition T)))
      (start shift : Nat) (acc : List (PolyID × PolyID)),
      (∀ p ∈ polys, ∃ pt, p.1.kind = SymbolKind.Poly pt) →
      idsConsecFrom polys start = true →
      shift ≤ start →
      polys.foldl (buildReplacementsStep S) (some (shift, acc)) =
        some (shift + removedLen S polys, acc ++ keptPairs S polys shift) := by
  intro polys
  induction polys with
  | nil => intro start shift acc _ _ _; simp [removedLen, keptPairs]
  | cons p rest ih =>
    intro start shift acc hkinds hconsec hle
    obtain ⟨pt, hpt⟩ := hkinds p (by simp)
    have hpid : polyIdOfSymbol p.1 = some ⟨p.1.id, pt⟩ := by
      unfold polyIdOfSymbol
      rw [hpt]
    simp only [idsConsecFrom, Bool.and_eq_true, decide_eq_true_eq] at hconsec
    obtain ⟨hid, hconsec'⟩ := hconsec
    by_cases hmem : (⟨p.1.id, pt⟩ : PolyID) ∈ S
    · have hstep : buildReplacementsStep S (some (shift, acc)) p =
          some (shift + symbolLength p.1, acc) := by
        simp [buildReplacementsStep, hpid, hmem]
      rw [List.foldl_cons, hstep,
        ih (start + symbolLength p.1) (shift + symbolLength p.1) acc
          (fun q hq => hkinds q (by simp [hq])) hconsec' (by omega)]
      simp only [removedLen, keptPairs, hpid, if_pos hmem]
      rw [Nat.add_assoc]
    · have hnotlt : ¬ p.1.id < shift := by omega
      have hstep : buildReplacementsStep S (some (shift, acc)) p =
          some (shift, acc ++ [((⟨p.1.id, pt⟩ : PolyID), ⟨p.1.id - shift, pt⟩)]) := by
        simp [buildReplacementsStep, hpid, hmem, hnotlt]
      rw [List.foldl_cons, hstep,
        ih (start + symbolLength p.1) shift _
          (fun q hq => hkinds q (by simp [hq])) hconsec' (by omega)]
      simp only [removedLen, keptPairs, hpid, if_neg hmem, List.append_assoc,
        List.singleton_append, Nat.zero_add]

/-- Every key in `keptPairs` is at least the starting ID. -/
theorem keptPairs_key_lb {T : Type} (S : List PolyID) :
    ∀ (polys : List (Symbol × Option (FunctionValueDefinition T)))
      (start shift : Nat),
      (∀ p ∈ polys, ∃ pt, p.1.kind = SymbolKind.Poly pt) →
      idsConsecFrom polys start = true →
      ∀ q ∈ keptPairs S polys shift, start ≤ q.1.id := by
  intro polys
  induction polys with
  | nil => intro start shift _ _ q hq; simp [keptPairs] at hq
  | cons p rest ih =>
    intro start shift hkinds hconsec q hq
    obtain ⟨pt, hpt⟩ := hkinds p (by simp)
    have hpid : polyIdOfSymbol p.1 = some ⟨p.1.id, pt⟩ := by
      unfold polyIdOfSymbol
      rw [hpt]
    simp only [idsConsecFrom, Bool.and_eq_true, decide_eq_true_eq] at hconsec
    obtain ⟨hid, hconsec'⟩ := hconsec
    simp only [keptPairs, hpid] at hq
    by_cases hmem : (⟨p.1.id, pt⟩ : PolyID) ∈ S
    · rw [if_pos hmem] at hq
      have := ih (start + symbolLength p.1) (shift + symbolLength p.1)
        (fun r hr => hkinds r (by simp [hr])) hconsec' q hq
      omega
    · rw [if_neg hmem] at hq
      rcases List.mem_cons.mp hq with hq | hq
      · subst hq; simp [hid]
      · have := ih (start + symbolLength p.1) shift
          (fun r hr => hkinds r (by simp [hr])) hconsec' q hq
        omega

/-- Every key in `keptPairs` over `Poly pt` symbols has ptype `pt`. -/
theorem keptPairs_key_ptype {T : Type} (S : List PolyID) (pt : PolynomialType) :
    ∀ (polys : List (Symbol × Option (FunctionValueDefinition T))) (shift : Nat),
      (∀ p ∈ polys, p.1.kind = SymbolKind.Poly pt) →
      ∀ q ∈ keptPairs S polys shift, q.1.ptype = pt := by
  intro polys
  induction polys with
  | nil => intro shift _ q hq; simp [keptPairs] at hq
  | cons p rest ih =>
    intro shift hkinds q hq
    have hpt := hkinds p (by simp)
    have hpid : polyIdOfSymbol p.1 = some ⟨p.1.id, pt⟩ := by
      unfold polyIdOfSymbol
      rw [hpt]
    simp only [keptPairs, hpid] at hq
    by_cases hmem : (⟨p.1.id, pt⟩ : PolyID) ∈ S
    · rw [if_pos hmem] at hq
      exact ih _ (fun r hr => hkinds r (by simp [hr])) q hq
    · rw [if_neg hmem] at hq
      rcases List.mem_cons.mp hq with hq | hq
      · subst hq; rfl
      · exact ih _ (fun r hr => hkinds r (by simp [hr])) q hq

/-- Lookup in `keptPairs` finds every pair it contains (the consecutive IDs
make the keys distinct). -/
theorem keptPairs_lookup {T : Type} (S : List PolyID) :
    ∀ (polys : List (Symbol × Option (FunctionValueDefinition T)))
      (start shift : Nat),
      (∀ p ∈ polys, ∃ pt, p.1.kind = SymbolKind.Poly pt) →
      (∀ p ∈ polys, 1 ≤ symbolLength p.1) →
      idsConsecFrom polys start = true →
      ∀ q ∈ keptPairs S polys shift,
        lookupRepl (keptPairs S polys shift) q.1 = some q.2 := by
  intro polys
  induction polys with
  | nil => intro start shift _ _ _ q hq; simp [keptPairs] at hq
  | cons p rest ih =>
    intro start shift hkinds hlens hconsec q hq
    obtain ⟨pt, hpt⟩ := hkinds p (by simp)
    have hpid : polyIdOfSymbol p.1 = some ⟨p.1.id, pt⟩ := by
      unfold polyIdOfSymbol
      rw [hpt]
    simp only [idsConsecFrom, Bool.and_eq_true, decide_eq_true_eq] at hconsec
    obtain ⟨hid, hconsec'⟩ := hconsec
    have hkinds' : ∀ r ∈ rest, ∃ pt', r.1.kind = SymbolKind.Poly pt' :=
      fun r hr => hkinds r (by simp [hr])
    have hlens' : ∀ r ∈ rest, 1 ≤ symbolLength r.1 :=
      fun r hr => hlens r (by simp [hr])
    simp only [keptPairs, hpid] at hq ⊢
    by_cases hmem : (⟨p.1.id, pt⟩ : PolyID) ∈ S
    · rw [if_pos hmem] at hq ⊢
      exact ih (start + symbolLength p.1) _ hkinds' hlens' hconsec' q hq
    · rw [if_neg hmem] at hq ⊢
      rcases List.mem_cons.mp hq with hq | hq
      · subst hq
        unfold lookupRepl
        rw [List.find?_cons_of_pos _ (by simp)]
        rfl
      · have hlb := keptPairs_key_lb S rest (start + symbolLength p.1) shift
          hkinds' hconsec' q hq
        have hlen1 := hlens p (by simp)
        have hne : ¬ ((⟨p.1.id, pt⟩ : PolyID) = q.1) := by
          intro h
          have h2 : p.1.id = q.1.id := congrArg PolyID.id h
          omega
        unfold lookupRepl
        rw [List.find?_cons_of_neg _ (by simpa using hne)]
        exact ih (start + symbolLength p.1) shift hkinds' hlens' hconsec' q hq

/-- Every kept `Poly`-kind symbol of the list has a pair in `keptPairs`. -/
theorem keptPairs_mem {T : Type} (S : List PolyID) :
    ∀ (polys : List (Symbol × Option (FunctionValueDefinition T))) (shift : Nat)
      (s : Symbol) (pt : PolynomialType),
      (∀ r ∈ polys, ∃ pt', r.1.kind = SymbolKind.Poly pt') →
      (∃ d, (s, d) ∈ polys) → s.kind = SymbolKind.Poly pt →
      (⟨s.id, pt⟩ : PolyID) ∉ S →
      ∃ v, ((⟨s.id, pt⟩ : PolyID), v) ∈ keptPairs S polys shift := by
  intro polys
  induction polys with
  | nil => intro shift s pt _ hmem _ _; rcases hmem with ⟨d, hd⟩; simp at hd
  | cons p rest ih =>
    intro shift s pt hkinds hmem hkind hnot
    obtain ⟨pt', hpt'⟩ := hkinds p (by simp)
    have hpid : polyIdOfSymbol p.1 = some ⟨p.1.id, pt'⟩ := by
      unfold polyIdOfSymbol
      rw [hpt']
    rcases hmem with ⟨d, hd⟩
    rcases List.mem_cons.mp hd with hd | hd
    · have hs1 : p.1 = s := by rw [← hd]
      have hpids : polyIdOfSymbol p.1 = some ⟨s.id, pt⟩ := by
        unfold polyIdOfSymbol
        rw [hs1, hkind]
      refine ⟨⟨s.id - shift, pt⟩, ?_⟩
      simp only [keptPairs, hpids, if_neg hnot]
      exact List.mem_cons_self _ _
    · simp only [keptPairs, hpid]
      by_cases hm : (⟨p.1.id, pt'⟩ : PolyID) ∈ S
      · rw [if_pos hm]
        exact ih (shift + symbolLength p.1) s pt
          (fun r hr => hkinds r (by simp [hr])) ⟨d, hd⟩ hkind hnot
      · rw [if_neg hm]
        obtain ⟨v, hv⟩ := ih shift s pt
          (fun r hr => hkinds r (by simp [hr])) ⟨d, hd⟩ hkind hnot
        exact ⟨v, List.mem_cons_of_mem _ hv⟩

/-- `List.mapM` in the `Option` monad of a function that succeeds pointwise. -/
theorem mapM_eq_map_some {α β : Type} (f : α → Option β) (g : α → β) :
    ∀ l : List α, (∀ x ∈ l, f x = some (g x)) → l.mapM f = some (l.map g) := by
  intro l
  induction l with
  | nil => intro h; rfl
  | cons x xs ih =>
    intro h
    rw [List.mapM_cons, h x (by simp), ih (fun y hy => h y (by simp [hy]))]
    rfl

/-- Lookup in an appended replacement map that hits the first part. -/
theorem lookupRepl_append_of_some (l₁ l₂ : List (PolyID × PolyID)) (pid v : PolyID)
    (h : lookupRepl l₁ pid = some v) : lookupRepl (l₁ ++ l₂) pid = some v := by
  unfold lookupRepl at h ⊢
  rw [List.find?_append]
  cases hf : l₁.find? (fun p => p.1 = pid) with
  | none => rw [hf] at h; exact Option.noConfusion h
  | some q => rw [hf] at h; simpa using h

/-- Lookup in an appended replacement map whose first part misses. -/
theorem lookupRepl_append_of_none (l₁ l₂ : List (PolyID × PolyID)) (pid : PolyID)
    (h : ∀ q ∈ l₁, q.1.ptype ≠ pid.ptype) :
    lookupRepl (l₁ ++ l₂) pid = lookupRepl l₂ pid := by
  unfold lookupRepl
  rw [List.find?_append]
  have hf : l₁.find? (fun p => p.1 = pid) = none := by
    rw [List.find?_eq_none]
    intro q hq
    simp only [decide_eq_true_eq]
    intro he
    exact h q hq (by rw [he])
  rw [hf]
  rfl

/-- The algebraic visitor succeeds and rewrites when no reference is bad. -/
theorem visitAlgebraic_ok {T : Type} (bad : PolyID → Bool) (subst : PolyID → PolyID)
    (e : AlgebraicExpression T) (h : hasBadRefA bad e = false) :
    visitAlgebraic bad subst e = some (replaceRefsA subst e) := by
  unfold visitAlgebraic
  rw [h]
  simp

/-- The parsed visitor succeeds and rewrites when no reference is bad. -/
theorem visitParsed_ok {T : Type} (bad : PolyID → Bool) (subst : PolyID → PolyID)
    (e : PExpression T) (h : hasBadRefP bad e = false) :
    visitParsed bad subst e = some (replaceRefsP subst e) := by
  unfold visitParsed
  rw [h]
  simp

/-- The definitions visitor succeeds and rewrites when no reference is bad. -/
theorem visitFVD_ok {T : Type} (bad : PolyID → Bool) (subst : PolyID → PolyID)
    (d : FunctionValueDefinition T) (hok : defValueRefsOkFor bad (some d) = true) :
    visitFunctionValueDefinition bad subst d = some (mapFVDRefs subst d) := by
  cases d with
  | Mapping e =>
    have h : hasBadRefP bad e = false := by simpa [defValueRefsOkFor] using hok
    simp [visitFunctionValueDefinition, mapFVDRefs, visitParsed_ok bad subst e h]
  | Query e =>
    have h : hasBadRefP bad e = false := by simpa [defValueRefsOkFor] using hok
    simp [visitFunctionValueDefinition, mapFVDRefs, visitParsed_ok bad subst e h]
  | Expression e =>
    have h : hasBadRefP bad e = false := by simpa [defValueRefsOkFor] using hok
    simp [visitFunctionValueDefinition, mapFVDRefs, visitParsed_ok bad subst e h]
  | Array elements =>
    have h : ∀ ra ∈ elements, ∀ e ∈ ra.pattern, hasBadRefP bad e = false := by
      simpa [defValueRefsOkFor] using hok
    have hmapm : elements.mapM (fun (ra : RepeatedArray T) =>
        (ra.pattern.mapM (visitParsed bad subst)).map
          (fun pat => { ra with pattern := pat })) =
        some (elements.map
          (fun ra => { ra with pattern := ra.pattern.map (replaceRefsP subst) })) := by
      apply mapM_eq_map_some
      intro ra hra
      have hpat : ra.pattern.mapM (visitParsed bad subst) =
          some (ra.pattern.map (replaceRefsP subst)) :=
        mapM_eq_map_some _ _ _ (fun e he => visitParsed_ok bad subst e (h ra hra e he))
      rw [hpat]
      rfl
    show (elements.mapM fun (ra : RepeatedArray T) =>
        (ra.pattern.mapM (visitParsed bad subst)).map
          (fun pat => { ra with pattern := pat })).map FunctionValueDefinition.Array =
      some (mapFVDRefs subst (FunctionValueDefinition.Array elements))
    rw [hmapm]
    rfl

/-- The identities visitor succeeds and rewrites when no reference is bad. -/
theorem visitIdentity_ok {T : Type} (bad : PolyID → Bool) (subst : PolyID → PolyID)
    (i : Identity (AlgebraicExpression T)) (hok : identityRefsOkFor bad i = true) :
    visitIdentity bad subst i = some (mapIdentityRefs subst i) := by
  obtain ⟨iid, ikind, isrc, ⟨lsel, lexprs⟩, ⟨rsel, rexprs⟩⟩ := i
  unfold identityRefsOkFor at hok
  simp only [Bool.and_eq_true] at hok
  obtain ⟨⟨⟨h1, h2⟩, h3⟩, h4⟩ := hok
  have hlexprs : lexprs.mapM (visitAlgebraic bad subst) =
      some (lexprs.map (replaceRefsA subst)) :=
    mapM_eq_map_some _ _ _ (fun e he => visitAlgebraic_ok bad subst e
      (by simpa using (List.all_eq_true).mp h2 e he))
  have hrexprs : rexprs.mapM (visitAlgebraic bad subst) =
      some (rexprs.map (replaceRefsA subst)) :=
    mapM_eq_map_some _ _ _ (fun e he => visitAlgebraic_ok bad subst e
      (by simpa using (List.all_eq_true).mp h4 e he))
  have hlexprs2 : List.mapM.loop (visitAlgebraic bad subst) lexprs [] =
      some (lexprs.map (replaceRefsA subst)) := hlexprs
  have hrexprs2 : List.mapM.loop (visitAlgebraic bad subst) rexprs [] =
      some (rexprs.map (replaceRefsA subst)) := hrexprs
  cases lsel with
  | none =>
    cases rsel with
    | none =>
      simp [visitIdentity, mapIdentityRefs, mapSelected, hlexprs, hrexprs,
        hlexprs2, hrexprs2]
    | some er =>
      have her : hasBadRefA bad er = false := by simpa using h3
      simp [visitIdentity, mapIdentityRefs, mapSelected, hlexprs, hrexprs,
        hlexprs2, hrexprs2, visitAlgebraic_ok bad subst er her]
  | some el =>
    have hel : hasBadRefA bad el = false := by simpa using h1
    cases rsel with
    | none =>
      simp [visitIdentity, mapIdentityRefs, mapSelected, hlexprs, hrexprs,
        hlexprs2, hrexprs2, visitAlgebraic_ok bad subst el hel]
    | some er =>
      have her : hasBadRefA bad er = false := by simpa using h3
      simp [visitIdentity, mapIdentityRefs, mapSelected, hlexprs, hrexprs,
        hlexprs2, hrexprs2, visitAlgebraic_ok bad subst el hel,
        visitAlgebraic_ok bad subst er her]

/-- The intermediate-column pass succeeds with the self-pairs when every
intermediate symbol has a `Poly` kind and is kept. -/
theorem mapM_interPairs {T : Type} (S : List PolyID) :
    ∀ (l : List (String × Symbol × AlgebraicExpression T)),
      (∀ p ∈ l, interSymbolKept S p = true) →
      l.mapM (fun p => do
        let pid ← polyIdOfSymbol p.2.1
        if pid ∈ S then none else pure (pid, pid)) =
      some (l.filterMap (fun p => (polyIdOfSymbol p.2.1).map (fun pid => (pid, pid)))) := by
  intro l
  induction l with
  | nil => intro h; rfl
  | cons p rest ih =>
    intro h
    have hk := h p (by simp)
    unfold interSymbolKept at hk
    cases hpt : p.2.1.kind with
    | Poly pt =>
      rw [hpt] at hk
      have hnot : (⟨p.2.1.id, pt⟩ : PolyID) ∉ S := by simpa using hk
      have hpid : polyIdOfSymbol p.2.1 = some ⟨p.2.1.id, pt⟩ := by
        unfold polyIdOfSymbol
        rw [hpt]
      rw [List.mapM_cons, ih (fun q hq => h q (by simp [hq]))]
      simp [hpid, hnot]
    | Constant => rw [hpt] at hk; exact Bool.noConfusion hk
    | Other => rw [hpt] at hk; exact Bool.noConfusion hk

/-- Renumbering the kept symbols of a consecutive-ID list through any
substitution that agrees with `keptPairs` yields the consecutive ID range
starting at `start - shift`. -/
theorem kept_renumber_ids {T : Type} (S : List PolyID) (pt : PolynomialType)
    (subst : PolyID → PolyID) :
    ∀ (polys : List (Symbol × Option (FunctionValueDefinition T)))
      (start shift : Nat),
      (∀ p ∈ polys, p.1.kind = SymbolKind.Poly pt) →
      idsConsecFrom polys start = true →
      shift ≤ start →
      (∀ q ∈ keptPairs S polys shift, subst q.1 = q.2) →
      ((polys.filter (fun p => !decide ((⟨p.1.id, pt⟩ : PolyID) ∈ S))).map
        (fun p => expandSym (renumberSymbol subst p.1))).flatten
        = List.range' (start - shift) (totalLen polys - removedLen S polys) 1 := by
  intro polys
  induction polys with
  | nil => intro start shift _ _ _ _; simp [totalLen, removedLen]
  | cons p rest ih =>
    intro start shift hkinds hconsec hle hsub
    have hpt := hkinds p (by simp)
    have hpid : polyIdOfSymbol p.1 = some ⟨p.1.id, pt⟩ := by
      unfold polyIdOfSymbol
      rw [hpt]
    simp only [idsConsecFrom, Bool.and_eq_true, decide_eq_true_eq] at hconsec
    obtain ⟨hid, hconsec'⟩ := hconsec
    have hkinds' : ∀ r ∈ rest, r.1.kind = SymbolKind.Poly pt :=
      fun r hr => hkinds r (by simp [hr])
    have hRT := removedLen_le_totalLen S rest
    by_cases hmem : (⟨p.1.id, pt⟩ : PolyID) ∈ S
    · have hsub' : ∀ q ∈ keptPairs S rest (shift + symbolLength p.1), subst q.1 = q.2 := by
        intro q hq
        apply hsub
        simp only [keptPairs, hpid, if_pos hmem]
        exact hq
      rw [List.filter_cons_of_neg (by simp [hmem])]
      rw [ih (start + symbolLength p.1) (shift + symbolLength p.1) hkinds'
        hconsec' (by omega) hsub']
      have h1 : start + symbolLength p.1 - (shift + symbolLength p.1) =
          start - shift := by omega
      have h2 : totalLen rest - removedLen S rest =
          totalLen (p :: rest) - removedLen S (p :: rest) := by
        simp only [totalLen, removedLen, hpid, if_pos hmem]
        omega
      rw [h1, h2]
    · have hsub' : ∀ q ∈ keptPairs S rest shift, subst q.1 = q.2 := by
        intro q hq
        apply hsub
        simp only [keptPairs, hpid, if_neg hmem]
        exact List.mem_cons_of_mem _ hq
      have hhead : subst ⟨p.1.id, pt⟩ = ⟨p.1.id - shift, pt⟩ := by
        have := hsub (⟨p.1.id, pt⟩, ⟨p.1.id - shift, pt⟩) (by
          simp only [keptPairs, hpid, if_neg hmem]
          exact List.mem_cons_self _ _)
        simpa using this
      rw [List.filter_cons_of_pos (by simp [hmem])]
      rw [List.map_cons, List.flatten_cons,
        ih (start + symbolLength p.1) shift hkinds' hconsec' (by omega) hsub']
      have hexp : expandSym (renumberSymbol subst p.1) =
          List.range' (start - shift) (symbolLength p.1) 1 := by
        unfold renumberSymbol
        rw [hpt]
        simp only [hhead]
        unfold expandSym symbolLength
        rw [List.range'_eq_map_range]
        simp [hid]
      rw [hexp]
      have h1 : start + symbolLength p.1 - shift =
          (start - shift) + symbolLength p.1 := by omega
      rw [h1]
      rw [show List.range' (start - shift) (symbolLength p.1) 1 ++
          List.range' (start - shift + symbolLength p.1)
            (totalLen rest - removedLen S rest) 1 =
          List.range' (start - shift)
            ((totalLen rest - removedLen S rest) + symbolLength p.1) 1 from
        List.range'_append_1 _ _ _]
      have h2 : (totalLen rest - removedLen S rest) + symbolLength p.1 =
          totalLen (p :: rest) - removedLen S (p :: rest) := by
        simp only [totalLen, removedLen, hpid, if_neg hmem]
        omega
      rw [h2]

/-- Renumbering does not change a symbol's kind. -/
theorem renumberSymbol_kind (subst : PolyID → PolyID) (s : Symbol) :
    (renumberSymbol subst s).kind = s.kind := by
  unfold renumberSymbol
  cases hk : s.kind <;> simp [hk]

/-- The `pt`-kind symbols of a filtered-and-renumbered definitions list are
the kept `pt`-kind symbols, renumbered. -/
theorem symsOfKindList_removed {T : Type} (S : List PolyID) (pt : PolynomialType)
    (subst : PolyID → PolyID)
    (valueMap : Option (FunctionValueDefinition T) → Option (FunctionValueDefinition T)) :
    ∀ l : List (String × Symbol × Option (FunctionValueDefinition T)),
      symsOfKindList ((l.filter (fun p => !defIsRemoved S p)).map
        (fun p => (p.1, renumberSymbol subst p.2.1, valueMap p.2.2))) pt =
      ((symsOfKindList l pt).filter
        (fun s => !decide ((⟨s.id, pt⟩ : PolyID) ∈ S))).map (renumberSymbol subst) := by
  intro l
  induction l with
  | nil => rfl
  | cons p rest ih =>
    cases hk : p.2.1.kind with
    | Poly pt' =>
      by_cases hpt : pt' = pt
      · subst hpt
        by_cases hmem : (⟨p.2.1.id, pt'⟩ : PolyID) ∈ S
        · have hrem : defIsRemoved S p = true := by
            unfold defIsRemoved
            rw [hk]
            simpa using hmem
          rw [show symsOfKindList (p :: rest) pt' =
              p.2.1 :: symsOfKindList rest pt' by
            unfold symsOfKindList
            rw [List.filterMap_cons]
            simp [hk]]
          rw [List.filter_cons_of_neg (by simp [hrem]),
            List.filter_cons_of_neg (by simpa using hmem)]
          exact ih
        · have hrem : defIsRemoved S p = false := by
            unfold defIsRemoved
            rw [hk]
            simpa using hmem
          rw [show symsOfKindList (p :: rest) pt' =
              p.2.1 :: symsOfKindList rest pt' by
            unfold symsOfKindList
            rw [List.filterMap_cons]
            simp [hk]]
          rw [List.filter_cons_of_pos (by simp [hrem]),
            List.filter_cons_of_pos (by simpa using hmem)]
          rw [List.map_cons, List.map_cons]
          rw [show symsOfKindList ((p.1, renumberSymbol subst p.2.1, valueMap p.2.2) ::
              (rest.filter (fun p => !defIsRemoved S p)).map
                (fun p => (p.1, renumberSymbol subst p.2.1, valueMap p.2.2))) pt' =
              renumberSymbol subst p.2.1 :: symsOfKindList
                ((rest.filter (fun p => !defIsRemoved S p)).map
                  (fun p => (p.1, renumberSymbol subst p.2.1, valueMap p.2.2))) pt' by
            unfold symsOfKindList
            rw [List.filterMap_cons]
            simp [renumberSymbol_kind subst p.2.1, hk]]
          rw [ih]
      · by_cases hmem : (⟨p.2.1.id, pt'⟩ : PolyID) ∈ S
        · have hrem : defIsRemoved S p = true := by
            unfold defIsRemoved
            rw [hk]
            simpa using hmem
          rw [show symsOfKindList (p :: rest) pt = symsOfKindList rest pt by
            unfold symsOfKindList
            rw [List.filterMap_cons]
            simp [hk, hpt]]
          rw [List.filter_cons_of_neg (by simp [hrem])]
          exact ih
        · have hrem : defIsRemoved S p = false := by
            unfold defIsRemoved
            rw [hk]
            simpa using hmem
          rw [show symsOfKindList (p :: rest) pt = symsOfKindList rest pt by
            unfold symsOfKindList
            rw [List.filterMap_cons]
            simp [hk, hpt]]
          rw [List.filter_cons_of_pos (by simp [hrem]), List.map_cons]
          rw [show symsOfKindList ((p.1, renumberSymbol subst p.2.1, valueMap p.2.2) ::
              (rest.filter (fun p => !defIsRemoved S p)).map
                (fun p => (p.1, renumberSymbol subst p.2.1, valueMap p.2.2))) pt =
              symsOfKindList ((rest.filter (fun p => !defIsRemoved S p)).map
                (fun p => (p.1, renumberSymbol subst p.2.1, valueMap p.2.2))) pt by
            unfold symsOfKindList
            rw [List.filterMap_cons]
            simp [renumberSymbol_kind subst p.2.1, hk, hpt]]
          exact ih
    | Constant =>
      have hrem : defIsRemoved S p = false := by
        unfold defIsRemoved
        rw [hk]
      rw [show symsOfKindList (p :: rest) pt = symsOfKindList rest pt by
        unfold symsOfKindList
        rw [List.filterMap_cons]
        simp [hk]]
      rw [List.filter_cons_of_pos (by simp [hrem]), List.map_cons]
      rw [show symsOfKindList ((p.1, renumberSymbol subst p.2.1, valueMap p.2.2) ::
          (rest.filter (fun p => !defIsRemoved S p)).map
            (fun p => (p.1, renumberSymbol subst p.2.1, valueMap p.2.2))) pt =
          symsOfKindList ((rest.filter (fun p => !defIsRemoved S p)).map
            (fun p => (p.1, renumberSymbol subst p.2.1, valueMap p.2.2))) pt by
        unfold symsOfKindList
        rw [List.filterMap_cons]
        simp [renumberSymbol_kind subst p.2.1, hk]]
      exact ih
    | Other =>
      have hrem : defIsRemoved S p = false := by
        unfold defIsRemoved
        rw [hk]
      rw [show symsOfKindList (p :: rest) pt = symsOfKindList rest pt by
        unfold symsOfKindList
        rw [List.filterMap_cons]
        simp [hk]]
      rw [List.filter_cons_of_pos (by simp [hrem]), List.map_cons]
      rw [show symsOfKindList ((p.1, renumberSymbol subst p.2.1, valueMap p.2.2) ::
          (rest.filter (fun p => !defIsRemoved S p)).map
            (fun p => (p.1, renumberSymbol subst p.2.1, valueMap p.2.2))) pt =
          symsOfKindList ((rest.filter (fun p => !defIsRemoved S p)).map
            (fun p => (p.1, renumberSymbol subst p.2.1, valueMap p.2.2))) pt by
        unfold symsOfKindList
        rw [List.filterMap_cons]
        simp [renumberSymbol_kind subst p.2.1, hk]]
      exact ih

/-- C4.  `remove_polynomials(S)` on an `Analyzed` value whose committed and
constant IDs are *consecutive in source order* (multiplicities counted; mere
set-density is not enough, see the counterexample): it succeeds, deletes the
removed definitions and their `source_order` entries, renumbers the kept
symbols and rewrites every reference in definition values, identities and
intermediate columns through the replacement map, and the remaining IDs of
each subkind form a contiguous range starting at zero with count
`old_count - removed_count` (multiplicities counted).  The other hypotheses
rule out the panics: intermediate symbols are `Poly`-kind and never removed,
definition symbols are not `Poly Intermediate`, the definitions map and
`source_order` list the same committed/constant symbols, and no reference
points to a removed or undeclared polynomial. -/
theorem remove_polynomials_renumbering {T : Type} (S : List PolyID) (a : Analyzed T)
    (hconsecC : idsConsecFrom (committed_polys_in_source_order a) 0 = true)
    (hconsecK : idsConsecFrom (constant_polys_in_source_order a) 0 = true)
    (hlenC : ∀ p ∈ committed_polys_in_source_order a, 1 ≤ symbolLength p.1)
    (hlenK : ∀ p ∈ constant_polys_in_source_order a, 1 ≤ symbolLength p.1)
    (hkindsD : ∀ p ∈ a.definitions, defKindNotIntermediate p = true)
    (hpermC : (symsOfKind a .Committed).Perm
      ((committed_polys_in_source_order a).map (·.1)))
    (hpermK : (symsOfKind a .Constant).Perm
      ((constant_polys_in_source_order a).map (·.1)))
    (hinterOk : ∀ p ∈ a.intermediate_columns, interSymbolKept S p = true)
    (hVals : ∀ p ∈ a.definitions,
      defValueRefsOkFor (badRef S (replacementsOf S a)) p.2.2 = true)
    (hIdsOk : ∀ i ∈ a.identities,
      identityRefsOkFor (badRef S (replacementsOf S a)) i = true)
    (hIntersOk : ∀ p ∈ a.intermediate_columns,
      hasBadRefA (badRef S (replacementsOf S a)) p.2.2 = false) :
    remove_polynomials S a = some (removedResult S a) ∧
    (expandedIdsOfKind (removedResult S a) .Committed).Perm
      (List.range (totalLen (committed_polys_in_source_order a) -
        removedLen S (committed_polys_in_source_order a))) ∧
    (expandedIdsOfKind (removedResult S a) .Constant).Perm
      (List.range (totalLen (constant_polys_in_source_order a) -
        removedLen S (constant_polys_in_source_order a))) := by
  have hkC := definitions_in_source_order_kind a .Committed
  have hkK := definitions_in_source_order_kind a .Constant
  have hkC' : ∀ p ∈ committed_polys_in_source_order a,
      ∃ pt, p.1.kind = SymbolKind.Poly pt := fun p hp => ⟨_, hkC p hp⟩
  have hkK' : ∀ p ∈ constant_polys_in_source_order a,
      ∃ pt, p.1.kind = SymbolKind.Poly pt := fun p hp => ⟨_, hkK p hp⟩
  have hlookC : ∀ q ∈ keptPairs S (committed_polys_in_source_order a) 0,
      lookupRepl (replacementsOf S a) q.1 = some q.2 := by
    intro q hq
    have hlook := keptPairs_lookup S _ 0 0 hkC' hlenC hconsecC q hq
    unfold replacementsOf
    exact lookupRepl_append_of_some _ _ _ _ (lookupRepl_append_of_some _ _ _ _ hlook)
  have hptypesC : ∀ q ∈ keptPairs S (committed_polys_in_source_order a) 0,
      q.1.ptype = PolynomialType.Committed :=
    keptPairs_key_ptype S .Committed _ 0 hkC
  have hlookK : ∀ q ∈ keptPairs S (constant_polys_in_source_order a) 0,
      lookupRepl (replacementsOf S a) q.1 = some q.2 := by
    intro q hq
    have hlook := keptPairs_lookup S _ 0 0 hkK' hlenK hconsecK q hq
    have hKp : q.1.ptype = PolynomialType.Constant :=
      keptPairs_key_ptype S .Constant _ 0 hkK q hq
    have h12 : lookupRepl (keptPairs S (committed_polys_in_source_order a) 0 ++
        keptPairs S (constant_polys_in_source_order a) 0) q.1 = some q.2 := by
      rw [lookupRepl_append_of_none _ _ _ (fun r hr => by
        rw [hptypesC r hr, hKp]
        simp)]
      exact hlook
    unfold replacementsOf
    exact lookupRepl_append_of_some _ _ _ _ h12
  have hagreeC : ∀ q ∈ keptPairs S (committed_polys_in_source_order a) 0,
      substRef (replacementsOf S a) q.1 = q.2 := by
    intro q hq
    unfold substRef
    rw [hlookC q hq]
    rfl
  have hagreeK : ∀ q ∈ keptPairs S (constant_polys_in_source_order a) 0,
      substRef (replacementsOf S a) q.1 = q.2 := by
    intro q hq
    unfold substRef
    rw [hlookK q hq]
    rfl
  have h1 : buildReplacements S (committed_polys_in_source_order a) =
      some (removedLen S (committed_polys_in_source_order a),
        keptPairs S (committed_polys_in_source_order a) 0) := by
    unfold buildReplacements
    rw [buildReplacements_consec S _ 0 0 [] hkC' hconsecC (Nat.le_refl 0)]
    simp
  have h2 : buildReplacements S (constant_polys_in_source_order a) =
      some (removedLen S (constant_polys_in_source_order a),
        keptPairs S (constant_polys_in_source_order a) 0) := by
    unfold buildReplacements
    rw [buildReplacements_consec S _ 0 0 [] hkK' hconsecK (Nat.le_refl 0)]
    simp
  have h3 := mapM_interPairs S a.intermediate_columns hinterOk
  simp only [Option.bind_eq_bind, Option.pure_def] at h3
  have hrepl : (keptPairs S (committed_polys_in_source_order a) 0 ++
      keptPairs S (constant_polys_in_source_order a) 0 ++
      a.intermediate_columns.filterMap
        (fun p => (polyIdOfSymbol p.2.1).map (fun pid => (pid, pid)))) =
      replacementsOf S a := rfl
  have hrenum : (a.definitions.filter (fun p => !defIsRemoved S p)).mapM
      (fun p => match p.2.1.kind with
        | SymbolKind.Poly ptype =>
          if (⟨p.2.1.id, ptype⟩ : PolyID) ∈ S then none
          else
            match lookupRepl (replacementsOf S a) ⟨p.2.1.id, ptype⟩ with
            | none => none
            | some pid' => some (p.1,
                { id := pid'.id, source := p.2.1.source,
                  absolute_name := p.2.1.absolute_name, kind := p.2.1.kind,
                  degree := p.2.1.degree, length := p.2.1.length }, p.2.2)
        | _ => some p) =
      some ((a.definitions.filter (fun p => !defIsRemoved S p)).map
        (fun p => (p.1, renumberSymbol (substRef (replacementsOf S a)) p.2.1, p.2.2))) := by
    apply mapM_eq_map_some
    intro p hp
    have hpdef : p ∈ a.definitions := List.mem_of_mem_filter hp
    have hkept : defIsRemoved S p = false := by
      have := List.of_mem_filter hp
      simpa using this
    cases hk : p.2.1.kind with
    | Poly pt =>
      have hnotS : (⟨p.2.1.id, pt⟩ : PolyID) ∉ S := by
        unfold defIsRemoved at hkept
        rw [hk] at hkept
        simpa using hkept
      have hkd := hkindsD p hpdef
      unfold defKindNotIntermediate at hkd
      rw [hk] at hkd
      cases pt with
      | Intermediate => exact absurd hkd (by simp)
      | Committed =>
        have hsym : p.2.1 ∈ symsOfKind a .Committed := by
          unfold symsOfKind symsOfKindList
          refine List.mem_filterMap.mpr ⟨p, hpdef, ?_⟩
          rw [hk]
          simp
        obtain ⟨r, hr, hr1⟩ := List.mem_map.mp (hpermC.mem_iff.mp hsym)
        obtain ⟨v, hv⟩ := keptPairs_mem S _ 0 p.2.1 .Committed hkC'
          ⟨r.2, by rw [← hr1]; exact hr⟩ hk hnotS
        have hlookR := hlookC _ hv
        have hsubst : substRef (replacementsOf S a)
            (⟨p.2.1.id, .Committed⟩ : PolyID) = v := by
          unfold substRef
          rw [hlookR]
          rfl
        have hout : renumberSymbol (substRef (replacementsOf S a)) p.2.1 =
            { id := v.id, source := p.2.1.source,
              absolute_name := p.2.1.absolute_name, kind := p.2.1.kind,
              degree := p.2.1.degree, length := p.2.1.length } := by
          unfold renumberSymbol
          simp only [hk, hsubst]
        simp only [hk, if_neg hnotS, hlookR, hout]
      | Constant =>
        have hsym : p.2.1 ∈ symsOfKind a .Constant := by
          unfold symsOfKind symsOfKindList
          refine List.mem_filterMap.mpr ⟨p, hpdef, ?_⟩
          rw [hk]
          simp
        obtain ⟨r, hr, hr1⟩ := List.mem_map.mp (hpermK.mem_iff.mp hsym)
        obtain ⟨v, hv⟩ := keptPairs_mem S _ 0 p.2.1 .Constant hkK'
          ⟨r.2, by rw [← hr1]; exact hr⟩ hk hnotS
        have hlookR := hlookK _ hv
        have hsubst : substRef (replacementsOf S a)
            (⟨p.2.1.id, .Constant⟩ : PolyID) = v := by
          unfold substRef
          rw [hlookR]
          rfl
        have hout : renumberSymbol (substRef (replacementsOf S a)) p.2.1 =
            { id := v.id, source := p.2.1.source,
              absolute_name := p.2.1.absolute_name, kind := p.2.1.kind,
              degree := p.2.1.degree, length := p.2.1.length } := by
          unfold renumberSymbol
          simp only [hk, hsubst]
        simp only [hk, if_neg hnotS, hlookR, hout]
    | Constant =>
      have hout : renumberSymbol (substRef (replacementsOf S a)) p.2.1 = p.2.1 := by
        unfold renumberSymbol
        simp only [hk]
      simp only [hk, hout]
    | Other =>
      have hout : renumberSymbol (substRef (replacementsOf S a)) p.2.1 = p.2.1 := by
        unfold renumberSymbol
        simp only [hk]
      simp only [hk, hout]
  have hdefs : ((a.definitions.filter (fun p => !defIsRemoved S p)).map
      (fun p => (p.1, renumberSymbol (substRef (replacementsOf S a)) p.2.1, p.2.2))).mapM
      (fun p => match p.2.2 with
        | none => some p
        | some d => (visitFunctionValueDefinition (badRef S (replacementsOf S a))
            (substRef (replacementsOf S a)) d).map
            (fun d' => (p.1, p.2.1, some d'))) =
      some (((a.definitions.filter (fun p => !defIsRemoved S p)).map
        (fun p => (p.1, renumberSymbol (substRef (replacementsOf S a)) p.2.1, p.2.2))).map
        (fun p => (p.1, p.2.1, p.2.2.map
          (mapFVDRefs (substRef (replacementsOf S a)))))) := by
    apply mapM_eq_map_some
    intro q hq
    obtain ⟨p, hp, hpq⟩ := List.mem_map.mp hq
    have hpdef : p ∈ a.definitions := List.mem_of_mem_filter hp
    have hq22 : q.2.2 = p.2.2 := by rw [← hpq]
    cases hd : q.2.2 with
    | none =>
      simp only [hd, Option.map_none']
      rw [← hd]
    | some d =>
      have hok : defValueRefsOkFor (badRef S (replacementsOf S a)) (some d) = true := by
        rw [← hd, hq22]
        exact hVals p hpdef
      simp only [hd, visitFVD_ok _ _ d hok, Option.map_some']
  have hids : a.identities.mapM (visitIdentity (badRef S (replacementsOf S a))
      (substRef (replacementsOf S a))) =
      some (a.identities.map (mapIdentityRefs (substRef (replacementsOf S a)))) :=
    mapM_eq_map_some _ _ _ (fun i hi => visitIdentity_ok _ _ i (hIdsOk i hi))
  have hinters : a.intermediate_columns.mapM
      (fun p => (visitAlgebraic (badRef S (replacementsOf S a))
        (substRef (replacementsOf S a)) p.2.2).map (fun e' => (p.1, p.2.1, e'))) =
      some (a.intermediate_columns.map
        (fun p => (p.1, p.2.1, replaceRefsA (substRef (replacementsOf S a)) p.2.2))) := by
    apply mapM_eq_map_some
    intro p hp
    rw [visitAlgebraic_ok _ _ p.2.2 (hIntersOk p hp)]
    rfl
  refine ⟨?_, ?_, ?_⟩
  · simp only [remove_polynomials, h1, h2, h3, Option.bind_eq_bind, Option.some_bind,
      hrepl, hrenum, hdefs, hids, hinters, Option.pure_def]
    simp only [removedResult, List.map_map]
    rfl
  · have hsyms := symsOfKindList_removed S .Committed (substRef (replacementsOf S a))
      (fun v => v.map (mapFVDRefs (substRef (replacementsOf S a)))) a.definitions
    have e1 : expandedIdsOfKind (removedResult S a) .Committed =
        ((((symsOfKind a .Committed).filter
          (fun s => !decide ((⟨s.id, .Committed⟩ : PolyID) ∈ S))).map
          (renumberSymbol (substRef (replacementsOf S a)))).map expandSym).flatten := by
      unfold expandedIdsOfKind symsOfKind removedResult
      rw [hsyms]
    rw [e1]
    have hpfil := (hpermC.filter
      (fun s => !decide ((⟨s.id, .Committed⟩ : PolyID) ∈ S)))
    have hpmap := ((hpfil.map (renumberSymbol (substRef (replacementsOf S a)))).map
      expandSym).flatten
    refine hpmap.trans ?_
    rw [List.filter_map, List.map_map, List.map_map]
    have := kept_renumber_ids S .Committed (substRef (replacementsOf S a))
      (committed_polys_in_source_order a) 0 0 hkC hconsecC (Nat.le_refl 0) hagreeC
    simp only [Function.comp_def]
    rw [this, show (0 : Nat) - 0 = 0 from rfl, ← List.range_eq_range']
  · have hsyms := symsOfKindList_removed S .Constant (substRef (replacementsOf S a))
      (fun v => v.map (mapFVDRefs (substRef (replacementsOf S a)))) a.definitions
    have e1 : expandedIdsOfKind (removedResult S a) .Constant =
        ((((symsOfKind a .Constant).filter
          (fun s => !decide ((⟨s.id, .Constant⟩ : PolyID) ∈ S))).map
          (renumberSymbol (substRef (replacementsOf S a)))).map expandSym).flatten := by
      unfold expandedIdsOfKind symsOfKind removedResult
      rw [hsyms]
    rw [e1]
    have hpfil := (hpermK.filter
      (fun s => !decide ((⟨s.id, .Constant⟩ : PolyID) ∈ S)))
    have hpmap := ((hpfil.map (renumberSymbol (substRef (replacementsOf S a)))).map
      expandSym).flatten
    refine hpmap.trans ?_
    rw [List.filter_map, List.map_map, List.map_map]
    have := kept_renumber_ids S .Constant (substRef (replacementsOf S a))
      (constant_polys_in_source_order a) 0 0 hkK hconsecK (Nat.le_refl 0) hagreeK
    simp only [Function.comp_def]
    rw [this, show (0 : Nat) - 0 = 0 from rfl, ← List.range_eq_range']

/-- Two committed columns whose IDs are dense as a set (`{0, 1}`) but appear
in *decreasing* order in `source_order`. -/
def c4Analyzed : Analyzed Nat :=
  { definitions := [("N.A",
      { id := 0, source := ⟨"input.pil", 1⟩, absolute_name := "N.A",
        kind := .Poly .Committed, degree := 8, length := none }, none),
      ("N.B",
      { id := 1, source := ⟨"input.pil", 2⟩, absolute_name := "N.B",
        kind := .Poly .Committed, degree := 8, length := none }, none)]
    public_declarations := []
    intermediate_columns := []
    identities := []
    source_order := [.Definition "N.B", .Definition "N.A"] }

/-- What `remove_polynomials {(0, Committed)}` returns on `c4Analyzed`: the
surviving committed column keeps ID 1. -/
def c4Removed : Analyzed Nat :=
  { definitions := [("N.B",
      { id := 1, source := ⟨"input.pil", 2⟩, absolute_name := "N.B",
        kind := .Poly .Committed, degree := 8, length := none }, none)]
    public_declarations := []
    intermediate_columns := []
    identities := []
    source_order := [.Definition "N.B"] }

/-- C4 counterexample: set-density of the IDs per subkind does not make the
IDs after `remove_polynomials` contiguous.  `c4Analyzed` has dense committed
IDs `{0, 1}` (and no constant IDs), yet removing `(0, Committed)` leaves the
committed ID set `{1}`, which is not `{0}`: the surviving column is *not*
renumbered because `source_order` lists the columns in decreasing ID order,
so the fold of `buildReplacements` sees column 1 before any removed column
and maps it to itself. -/
theorem remove_polynomials_noncontiguous_counterexample :
    (expandedIdsOfKind c4Analyzed .Committed).Perm
      (List.range (totalLen (committed_polys_in_source_order c4Analyzed))) ∧
    (expandedIdsOfKind c4Analyzed .Constant).Perm
      (List.range (totalLen (constant_polys_in_source_order c4Analyzed))) ∧
    remove_polynomials [(⟨0, .Committed⟩ : PolyID)] c4Analyzed = some c4Removed ∧
    expandedIdsOfKind c4Removed .Committed = [1] ∧
    ¬ (expandedIdsOfKind c4Removed .Committed).Perm (List.range 1) :=
  ⟨by decide, by decide, by rfl, by decide, by decide⟩

/-- Two committed columns in increasing source order, and one identity
referencing the second; removing the first renumbers the second to ID 0. -/
def c4Good : Analyzed Nat :=
  { definitions := [("N.A",
      { id := 0, source := ⟨"input.pil", 1⟩, absolute_name := "N.A",
        kind := .Poly .Committed, degree := 8, length := none }, none),
      ("N.B",
      { id := 1, source := ⟨"input.pil", 2⟩, absolute_name := "N.B",
        kind := .Poly .Committed, degree := 8, length := none }, none)]
    public_declarations := []
    intermediate_columns := []
    identities := [{ id := 0, kind := .Polynomial, source := ⟨"input.pil", 3⟩,
                     left := { selector := none,
                               expressions := [.Reference
                                 { name := "N.B", poly_id := ⟨1, .Committed⟩,
                                   index := none, next := false }] },
                     right := { selector := none, expressions := [] } }]
    source_order := [.Definition "N.A", .Definition "N.B", .Identity 0] }

/-- Witness for C4 at a concrete input. -/
theorem remove_polynomials_renumbering_witness :
    remove_polynomials [(⟨0, .Committed⟩ : PolyID)] c4Good =
      some (removedResult [(⟨0, .Committed⟩ : PolyID)] c4Good) ∧
    (expandedIdsOfKind (removedResult [(⟨0, .Committed⟩ : PolyID)] c4Good)
      .Committed).Perm
      (List.range (totalLen (committed_polys_in_source_order c4Good) -
        removedLen [(⟨0, .Committed⟩ : PolyID)]
          (committed_polys_in_source_order c4Good))) ∧
    (expandedIdsOfKind (removedResult [(⟨0, .Committed⟩ : PolyID)] c4Good)
      .Constant).Perm
      (List.range (totalLen (constant_polys_in_source_order c4Good) -
        removedLen [(⟨0, .Committed⟩ : PolyID)]
          (constant_polys_in_source_order c4Good))) :=
  remove_polynomials_renumbering [(⟨0, .Committed⟩ : PolyID)] c4Good
    (by decide) (by decide) (by decide) (by decide) (by decide) (by decide)
    (by decide) (by decide) (by decide) (by decide) (by decide)

/-- A concrete `VmEnv` over trivial rows: the fixed-point passes leave the rows
unchanged and produce no assignments, row checks succeed, and the outer-query
latch behaviour is given by the two parameters. -/
def testEnv (hasOQ : Bool) (latch : Option Bool) : VmEnv Unit Unit Unit Unit where
  degree := 4
  row_offset := 0
  hasOuterQuery := hasOQ
  rowValues := fun _ => []
  freshRow := fun _ => ()
  loopWithoutNext := fun _ d => .ok (d, [], ())
  loopWithNext := fun _ d => .ok (d, [], ())
  zeroWithoutNext := fun _ _ _ => .ok ()
  zeroWithNext := fun _ _ _ => .ok ()
  checkRowPair := fun _ _ _ _ => true
  latchEval := fun _ _ => latch
  outerQueryComplete := fun _ _ => true

/-- An empty `Analyzed` value over the unit field. -/
def emptyAnalyzed : Analyzed Unit :=
  { definitions := []
    public_declarations := []
    intermediate_columns := []
    identities := []
    source_order := [] }

/-- A concrete source reference. -/
def testSource : SourceRef := { file := "input", line := 1 }

/-! ## C3 — loop detection -/

/-- The claim's matching condition for a period `p` at row `r`: for all
`i ∈ 1..=p`, the cells of row `r - i - p` equal the cells of row `r - i`. -/
def period_matches {ρ V : Type} [DecidableEq V] (rowValues : ρ → List V)
    (data : List ρ) (row p : Nat) : Bool :=
  (List.range' 1 p).all fun i =>
    match data.get? (row - i - p), data.get? (row - i) with
    | some a, some b => values_match rowValues a b
    | _, _ => false

/-- In the in-bounds regime of the row loop (`6 ≤ row ≤ data.length`),
`rows_are_repeating` does not panic and equals the first period in `[1, 2, 3]`
whose rows match. -/
theorem rows_are_repeating_eq {ρ V : Type} [DecidableEq V] (rowValues : ρ → List V)
    (data : List ρ) (row : Nat) (h6 : 6 ≤ row) (hlen : row ≤ data.length) :
    rows_are_repeating rowValues data row =
      .ok ((List.range' 1 3).find? (period_matches rowValues data row)) := by
  unfold rows_are_repeating
  rw [if_neg (by simp [MAX_PERIOD]; omega)]
  have h3 : MAX_PERIOD - 1 = 3 := rfl
  rw [h3]
  apply findOrPanic_eq_find
  intro p hp
  rw [List.mem_range'_1] at hp
  unfold period_matches
  apply allOrPanic_eq_all
  intro i hi
  rw [List.mem_range'_1] at hi
  have hb1 : row - i - p < data.length := by omega
  have hb2 : row - i < data.length := by omega
  have hnn1 : (0 : Int) ≤ (row : Int) - i - p := by omega
  have hnn2 : (0 : Int) ≤ (row : Int) - i := by omega
  have ht1 : ((row : Int) - i - p).toNat = row - i - p := by omega
  have ht2 : ((row : Int) - i).toNat = row - i := by omega
  rw [show getRowChecked data ((row : Int) - i - p) = data.get? (row - i - p) by
        simp [getRowChecked, hnn1, ht1],
      show getRowChecked data ((row : Int) - i) = data.get? (row - i) by
        simp [getRowChecked, hnn2, ht2]]
  rw [List.get?_eq_get hb1, List.get?_eq_get hb2]

/-- C3: in `VmProcessor::run`, while not in looping mode, at every row index
`r > 0` divisible by 100 the processor runs `rows_are_repeating` (first
conjunct), which returns period `p` iff `p` is the smallest value in the
half-open range `1..MAX_PERIOD` (with `MAX_PERIOD = 4`) such that for all
`i ∈ 1..=p` the cells of row `r - i - p` equal the cells of row `r - i`
(second conjunct); for `r < MAX_PERIOD` no period is ever found (third
conjunct). -/
theorem loop_detection_characterization {ρ V α σ : Type} [DecidableEq V]
    (env : VmEnv ρ V α σ) (data : List ρ) (r : Nat)
    (h0 : 0 < r) (h100 : r % 100 = 0) (hlen : r ≤ data.length) :
    (detectionStep env none data r = rows_are_repeating env.rowValues data r) ∧
    (∀ p : Nat, rows_are_repeating env.rowValues data r = .ok (some p) ↔
      (1 ≤ p ∧ p < MAX_PERIOD ∧ period_matches env.rowValues data r p = true ∧
        ∀ q, 1 ≤ q → q < p → period_matches env.rowValues data r q = false)) ∧
    (∀ (data' : List ρ) (r' : Nat), r' < MAX_PERIOD →
      rows_are_repeating env.rowValues data' r' = .ok none) := by
  have h6 : 6 ≤ r := by omega
  have heq := rows_are_repeating_eq env.rowValues data r h6 hlen
  refine ⟨?_, ?_, ?_⟩
  · simp [detectionStep, h100, h0]
  · intro p
    rw [heq]
    have hr3 : (List.range' 1 3 : List Nat) = [1, 2, 3] := rfl
    rw [hr3]
    simp only [MAX_PERIOD]
    cases hg1 : period_matches env.rowValues data r 1 <;>
      cases hg2 : period_matches env.rowValues data r 2 <;>
      cases hg3 : period_matches env.rowValues data r 3 <;>
      simp only [List.find?, hg1, hg2, hg3, Except.ok.injEq, Option.some.injEq] <;>
      constructor
    -- (false, false, false): no period found
    · rintro ⟨⟩
    · rintro ⟨hp1, hp4, hgp, hmin⟩
      interval_cases p <;> simp_all
    -- (false, false, true): period 3
    · rintro rfl
      refine ⟨by omega, by omega, hg3, ?_⟩
      intro q h1 h2
      interval_cases q
      · exact hg1
      · exact hg2
    · rintro ⟨hp1, hp4, hgp, hmin⟩
      interval_cases p <;> simp_all
    -- (false, true, false): period 2
    · rintro rfl
      refine ⟨by omega, by omega, hg2, ?_⟩
      intro q h1 h2
      interval_cases q
      exact hg1
    · rintro ⟨hp1, hp4, hgp, hmin⟩
      interval_cases p
      · simp_all
      · simp_all
      · exact absurd (hmin 2 (by omega) (by omega)) (by simp [hg2])
    -- (false, true, true): period 2
    · rintro rfl
      refine ⟨by omega, by omega, hg2, ?_⟩
      intro q h1 h2
      interval_cases q
      exact hg1
    · rintro ⟨hp1, hp4, hgp, hmin⟩
      interval_cases p
      · simp_all
      · simp_all
      · exact absurd (hmin 2 (by omega) (by omega)) (by simp [hg2])
    -- (true, _, _): period 1
    · rintro rfl
      exact ⟨by omega, by omega, hg1, fun q h1 h2 => absurd h2 (by omega)⟩
    · rintro ⟨hp1, hp4, hgp, hmin⟩
      interval_cases p
      · simp_all
      · exact absurd (hmin 1 (by omega) (by omega)) (by simp [hg1])
      · exact absurd (hmin 1 (by omega) (by omega)) (by simp [hg1])
    · rintro rfl
      exact ⟨by omega, by omega, hg1, fun q h1 h2 => absurd h2 (by omega)⟩
    · rintro ⟨hp1, hp4, hgp, hmin⟩
      interval_cases p
      · simp_all
      · exact absurd (hmin 1 (by omega) (by omega)) (by simp [hg1])
      · exact absurd (hmin 1 (by omega) (by omega)) (by simp [hg1])
    · rintro rfl
      exact ⟨by omega, by omega, hg1, fun q h1 h2 => absurd h2 (by omega)⟩
    · rintro ⟨hp1, hp4, hgp, hmin⟩
      interval_cases p
      · simp_all
      · exact absurd (hmin 1 (by omega) (by omega)) (by simp [hg1])
      · exact absurd (hmin 1 (by omega) (by omega)) (by simp [hg1])
    · rintro rfl
      exact ⟨by omega, by omega, hg1, fun q h1 h2 => absurd h2 (by omega)⟩
    · rintro ⟨hp1, hp4, hgp, hmin⟩
      interval_cases p
      · simp_all
      · exact absurd (hmin 1 (by omega) (by omega)) (by simp [hg1])
      · exact absurd (hmin 1 (by omega) (by omega)) (by simp [hg1])
  · intro data' r' hr'
    unfold rows_are_repeating
    rw [if_pos hr']

/-- Witness for C3 at a concrete input: in a 100-row arena of identical rows,
loop detection at row 100 finds period 1. -/
theorem loop_detection_characterization_witness :
    rows_are_repeating (testEnv false none).rowValues (List.replicate 100 ()) 100 =
      .ok (some 1) :=
  ((loop_detection_characterization (testEnv false none) (List.replicate 100 ()) 100
      (by decide) (by decide) (by simp)).2.1 1).mpr
    ⟨by decide, by decide, by decide, fun q h1 h2 => absurd h2 (by omega)⟩

/-! ## C1 — the size of the row arena

The fixed-point passes only update cells of existing rows (`apply_updates`
goes through `mutable_row_pair`, `set_inputs_if_unset` writes to existing
rows); they never push rows.  This is the `PreservesLength` property of the
two abstracted passes, under which the row loop maintains the arena-size
invariant. -/

/-- A fixed-point pass never changes the number of rows. -/
def PreservesLength {ρ α σ : Type}
    (f : Nat → List ρ → Except (List String) (List ρ × List α × σ)) : Prop :=
  ∀ r d x, f r d = .ok x → x.1.length = d.length

/-- `compute_row` panics `unsatisfiable` or `underconstrained`, or succeeds
preserving the number of rows. -/
theorem compute_row_cases {ρ V α σ : Type} (env : VmEnv ρ V α σ)
    (hp1 : PreservesLength env.loopWithoutNext)
    (hp2 : PreservesLength env.loopWithNext) (r : Nat) (d : List ρ) :
    compute_row env r d = .error .unsatisfiable ∨
    compute_row env r d = .error .underconstrained ∨
    (∃ d2 a, compute_row env r d = .ok (d2, a) ∧ d2.length = d.length) := by
  cases hA : env.loopWithoutNext r d with
  | error e => left; simp [compute_row, hA]
  | ok x1 =>
    obtain ⟨d1, a1, s1⟩ := x1
    have hd1 : d1.length = d.length := hp1 r d (d1, a1, s1) hA
    cases hB : env.loopWithNext r d1 with
    | error e => left; simp [compute_row, hA, hB]
    | ok x2 =>
      obtain ⟨d2, a2, s2⟩ := x2
      have hd2 : d2.length = d1.length := hp2 r d1 (d2, a2, s2) hB
      by_cases hq : env.hasOuterQuery
      · right; right
        exact ⟨d2, a1 ++ a2, by simp [compute_row, hA, hB, hq], by omega⟩
      · simp only [Bool.not_eq_true] at hq
        cases hC : env.zeroWithoutNext r s1 d2 with
        | error e => right; left; simp [compute_row, hA, hB, hq, hC]
        | ok u =>
          cases u
          cases hD : env.zeroWithNext r s2 d2 with
          | error e => right; left; simp [compute_row, hA, hB, hq, hC, hD]
          | ok u =>
            cases u
            right; right
            exact ⟨d2, a1 ++ a2, by simp [compute_row, hA, hB, hq, hC, hD], by omega⟩

/-- `ensure_has_next_row` pushes a fresh row when asked about the last row. -/
theorem ensure_has_next_row_push {ρ : Type} (freshRow : Nat → ρ) (r : Nat)
    (d : List ρ) (h : d.length = r + 1) :
    ensure_has_next_row freshRow r d = .ok (d ++ [freshRow (r + 1)]) := by
  unfold ensure_has_next_row
  rw [if_neg (by omega), if_pos (by omega)]

/-- `ensure_has_next_row` is a no-op when a next row already exists. -/
theorem ensure_has_next_row_noop {ρ : Type} (freshRow : Nat → ρ) (r : Nat)
    (d : List ρ) (h : r + 1 < d.length) :
    ensure_has_next_row freshRow r d = .ok d := by
  unfold ensure_has_next_row
  rw [if_neg (by omega), if_neg (by omega)]

/-- Without an outer query the normal-mode phase never returns early and never
panics an assertion: it errors `unsatisfiable`/`underconstrained` or continues
with an arena of `r + 2` rows. -/
theorem normalPhase_no_outer {ρ V α σ : Type} (env : VmEnv ρ V α σ)
    (hoq : env.hasOuterQuery = false)
    (hp1 : PreservesLength env.loopWithoutNext)
    (hp2 : PreservesLength env.loopWithNext)
    (r : Nat) (oa : List α) (d : List ρ) (hlen : d.length = r + 1) :
    (∃ e, normalPhase env r oa d = .error e ∧ e ≠ .assertion ∧ e ≠ .entryAssertion) ∨
    (∃ d2 oa', normalPhase env r oa d = .ok (.next d2 oa') ∧ d2.length = r + 2) := by
  rcases compute_row_cases env hp1 hp2 r (d ++ [env.freshRow (r + 1)]) with h | h | ⟨d2, a, hok, hl⟩
  · left
    refine ⟨.unsatisfiable, ?_, by decide, by decide⟩
    simp only [normalPhase, ensure_has_next_row_push env.freshRow r d hlen, h]
  · left
    refine ⟨.underconstrained, ?_, by decide, by decide⟩
    simp only [normalPhase, ensure_has_next_row_push env.freshRow r d hlen, h]
  · right
    refine ⟨d2, oa ++ a, ?_, ?_⟩
    · simp only [normalPhase, ensure_has_next_row_push env.freshRow r d hlen, hok,
        latch_value, hoq, Bool.false_eq_true, if_false]
    · simp at hl
      omega

/-- `try_proposed_row` commits a valid proposed row by pushing it when the
current row is one past the end of the arena. -/
theorem try_proposed_row_valid_push {ρ V α σ : Type} (env : VmEnv ρ V α σ)
    (r : Nat) (proposed : ρ) (d : List ρ)
    (hv : (env.checkRowPair r proposed false d &&
      env.checkRowPair r proposed true d) = true)
    (hlen : d.length = r) (hr : 1 ≤ r) :
    try_proposed_row env r proposed d = .ok (true, d ++ [proposed]) := by
  simp only [try_proposed_row, hv, if_true]
  rw [if_neg (by omega), if_neg (by omega), if_pos (by omega)]

/-- `try_proposed_row` commits a valid proposed row by overwriting the
pre-added last row. -/
theorem try_proposed_row_valid_set {ρ V α σ : Type} (env : VmEnv ρ V α σ)
    (r : Nat) (proposed : ρ) (d : List ρ)
    (hv : (env.checkRowPair r proposed false d &&
      env.checkRowPair r proposed true d) = true)
    (hlen : d.length = r + 1) :
    try_proposed_row env r proposed d = .ok (true, d.set r proposed) := by
  simp only [try_proposed_row, hv, if_true]
  rw [if_neg (by omega), if_pos (by omega)]

/-- On verification failure, `try_proposed_row` re-runs `ensure_has_next_row`
and `compute_row` on the previous row: it propagates a `compute_row` panic or
yields `false` with an arena of `r + 1` rows. -/
theorem try_proposed_row_invalid {ρ V α σ : Type} (env : VmEnv ρ V α σ)
    (hp1 : PreservesLength env.loopWithoutNext)
    (hp2 : PreservesLength env.loopWithNext)
    (r : Nat) (proposed : ρ) (d : List ρ)
    (hv : (env.checkRowPair r proposed false d &&
      env.checkRowPair r proposed true d) = false)
    (hr : 1 ≤ r) (hlen : d.length = r ∨ d.length = r + 1) :
    (∃ e, try_proposed_row env r proposed d = .error e ∧
      e ≠ .assertion ∧ e ≠ .entryAssertion) ∨
    (∃ d2, try_proposed_row env r proposed d = .ok (false, d2) ∧
      d2.length = r + 1) := by
  have hens : (ensure_has_next_row env.freshRow (r - 1) d = .ok d ∧ d.length = r + 1) ∨
      (ensure_has_next_row env.freshRow (r - 1) d = .ok (d ++ [env.freshRow r]) ∧
        (d ++ [env.freshRow r]).length = r + 1) := by
    rcases hlen with hlen | hlen
    · right
      have := ensure_has_next_row_push env.freshRow (r - 1) d (by omega)
      rw [show r - 1 + 1 = r by omega] at this
      exact ⟨this, by simp [hlen]⟩
    · left
      exact ⟨ensure_has_next_row_noop env.freshRow (r - 1) d (by omega), hlen⟩
  rcases hens with ⟨hens, hens_len⟩ | ⟨hens, hens_len⟩
  · rcases compute_row_cases env hp1 hp2 (r - 1) d with h | h | ⟨d2, a, hok, hl⟩
    · left
      refine ⟨.unsatisfiable, ?_, by decide, by decide⟩
      simp only [try_proposed_row, hv, Bool.false_eq_true, if_false,
        if_neg (show ¬ r = 0 by omega), hens, h]
    · left
      refine ⟨.underconstrained, ?_, by decide, by decide⟩
      simp only [try_proposed_row, hv, Bool.false_eq_true, if_false,
        if_neg (show ¬ r = 0 by omega), hens, h]
    · right
      refine ⟨d2, ?_, by omega⟩
      simp only [try_proposed_row, hv, Bool.false_eq_true, if_false,
        if_neg (show ¬ r = 0 by omega), hens, hok]
  · rcases compute_row_cases env hp1 hp2 (r - 1) (d ++ [env.freshRow r]) with
      h | h | ⟨d2, a, hok, hl⟩
    · left
      refine ⟨.unsatisfiable, ?_, by decide, by decide⟩
      simp only [try_proposed_row, hv, Bool.false_eq_true, if_false,
        if_neg (show ¬ r = 0 by omega), hens, h]
    · left
      refine ⟨.underconstrained, ?_, by decide, by decide⟩
      simp only [try_proposed_row, hv, Bool.false_eq_true, if_false,
        if_neg (show ¬ r = 0 by omega), hens, h]
    · right
      refine ⟨d2, ?_, by omega⟩
      simp only [try_proposed_row, hv, Bool.false_eq_true, if_false,
        if_neg (show ¬ r = 0 by omega), hens, hok]

/-- In looping mode (with the invariant `1 ≤ p < r` and an arena of `r` or
`r + 1` rows), the looping phase never panics an assertion: it propagates a
`compute_row` panic or yields an arena of exactly `r + 1` rows, staying in
looping mode iff the proposed row was valid. -/
theorem loopingPhase_some {ρ V α σ : Type} (env : VmEnv ρ V α σ)
    (hp1 : PreservesLength env.loopWithoutNext)
    (hp2 : PreservesLength env.loopWithNext)
    (r p : Nat) (d : List ρ) (hp : 1 ≤ p) (hpr : p < r)
    (hlen : d.length = r ∨ d.length = r + 1) :
    (∃ e, loopingPhase env r (some p) d = .error e ∧ e ≠ .assertion ∧ e ≠ .entryAssertion) ∨
    (∃ lp' d', loopingPhase env r (some p) d = .ok (lp', d') ∧ d'.length = r + 1 ∧
      (lp' = some p ∨ lp' = none)) := by
  have hget : r - p < d.length := by omega
  have hgoal : loopingPhase env r (some p) d =
      match try_proposed_row env r (d.get ⟨r - p, hget⟩) d with
      | .error e => .error e
      | .ok (valid, d') => .ok ((if valid then some p else none), d') := by
    simp only [loopingPhase, if_neg (show ¬ r < p by omega), List.get?_eq_get hget]
  rw [hgoal]
  cases hv : env.checkRowPair r (d.get ⟨r - p, hget⟩) false d &&
      env.checkRowPair r (d.get ⟨r - p, hget⟩) true d with
  | true =>
    rcases hlen with hlen | hlen
    · rw [try_proposed_row_valid_push env r _ d hv hlen (by omega)]
      right
      exact ⟨some p, d ++ [d.get ⟨r - p, hget⟩], by simp, by simp [hlen], Or.inl rfl⟩
    · rw [try_proposed_row_valid_set env r _ d hv hlen]
      right
      exact ⟨some p, d.set r (d.get ⟨r - p, hget⟩), by simp, by simp [hlen], Or.inl rfl⟩
  | false =>
    rcases try_proposed_row_invalid env hp1 hp2 r _ d hv (by omega) hlen with
      ⟨e, he, hea, heb⟩ | ⟨d2, hok, hl⟩
    · rw [he]
      exact Or.inl ⟨e, rfl, hea, heb⟩
    · rw [hok]
      right
      exact ⟨none, d2, by simp, hl, Or.inr rfl⟩

/-- The detection step never panics under the row-loop invariant, and any
period it reports satisfies `1 ≤ p < r`; when it reports no period the
processor was (and stays) out of looping mode. -/
theorem detectionStep_ok {ρ V α σ : Type} [DecidableEq V] (env : VmEnv ρ V α σ)
    (lp : Option Nat) (d : List ρ) (r : Nat)
    (hinv : lp = none → d.length = r + 1)
    (hlp : ∀ p, lp = some p → 1 ≤ p ∧ p < r) :
    ∃ lp2, detectionStep env lp d r = .ok lp2 ∧
      (∀ p, lp2 = some p → 1 ≤ p ∧ p < r) ∧ (lp2 = none → lp = none) := by
  unfold detectionStep
  split_ifs with hcond
  · obtain ⟨hlpn, h100, h0⟩ := hcond
    have h6 : 6 ≤ r := by omega
    have hl : r ≤ d.length := by rw [hinv hlpn]; omega
    rw [rows_are_repeating_eq env.rowValues d r h6 hl]
    refine ⟨_, rfl, ?_, fun _ => hlpn⟩
    intro p hp
    have hmem := List.mem_of_find?_eq_some hp
    rw [List.mem_range'_1] at hmem
    omega
  · exact ⟨lp, rfl, hlp, fun h => h ▸ rfl⟩

/-- The row-loop invariant: starting an iteration with `remaining` iterations
left at row `r`, the arena holds `r + 1` rows out of looping mode and `r` rows
in looping mode (with period `1 ≤ p < r`); after the final iteration it holds
exactly `r` rows.  Under it (and without an outer query), `runLoop` never
fails an assertion and any returned arena has `degree + 1 - row_offset`
rows. -/
theorem runLoop_invariant {ρ V α σ : Type} [DecidableEq V] (env : VmEnv ρ V α σ)
    (hoq : env.hasOuterQuery = false)
    (hp1 : PreservesLength env.loopWithoutNext)
    (hp2 : PreservesLength env.loopWithNext)
    (hoff : env.row_offset ≤ env.degree) :
    ∀ (remaining r : Nat) (d : List ρ) (lp : Option Nat) (oa : List α),
      remaining + r = env.degree - env.row_offset + 1 →
      (remaining = 0 → d.length = r) →
      (remaining ≠ 0 → (lp = none → d.length = r + 1) ∧
        (∀ p, lp = some p → 1 ≤ p ∧ p < r ∧ d.length = r)) →
      (runLoop env remaining r d lp oa ≠ .error .assertion ∧
       runLoop env remaining r d lp oa ≠ .error .entryAssertion ∧
       ∀ v dd, runLoop env remaining r d lp oa = .ok (v, dd) →
         dd.length + env.row_offset = env.degree + 1) := by
  intro remaining
  induction remaining with
  | zero =>
    intro r d lp oa hsum h0 _
    have hlen : d.length = r := h0 rfl
    have hok : d.length + env.row_offset = env.degree + 1 := by omega
    simp only [runLoop, if_pos hok]
    refine ⟨by simp, by simp, ?_⟩
    intro v dd h
    cases h
    exact hok
  | succ n ih =>
    intro r d lp oa hsum _ hinv
    obtain ⟨hnone, hsome⟩ := hinv (by omega)
    obtain ⟨lp2, hdet, hlp2, hlp2none⟩ := detectionStep_ok env lp d r hnone
      (fun p hp => ⟨(hsome p hp).1, (hsome p hp).2.1⟩)
    have hrun : runLoop env (n + 1) r d lp oa =
        match detectionStep env lp d r with
        | .error e => .error e
        | .ok lp' =>
          match loopingPhase env r lp' d with
          | .error e => .error e
          | .ok (lp'', d') =>
            if lp'' = none ∧ n ≠ 0 then
              match normalPhase env r oa d' with
              | .error e => .error e
              | .ok (.ret value d2) => .ok (value, d2)
              | .ok (.next d2 oa') => runLoop env n (r + 1) d2 none oa'
            else runLoop env n (r + 1) d' lp'' oa := rfl
    cases lp2 with
    | none =>
      have hdlen : d.length = r + 1 := hnone (hlp2none rfl)
      have hstep : runLoop env (n + 1) r d lp oa =
          (if (none : Option Nat) = none ∧ n ≠ 0 then
            match normalPhase env r oa d with
            | .error e => .error e
            | .ok (.ret value d2) => .ok (value, d2)
            | .ok (.next d2 oa') => runLoop env n (r + 1) d2 none oa'
          else runLoop env n (r + 1) d none oa) := by
        simp only [hrun, hdet, loopingPhase]
      rw [hstep]
      by_cases hn : n = 0
      · rw [if_neg (by simp [hn])]
        exact ih (r + 1) d none oa (by omega) (fun _ => by omega)
          (fun hc => absurd hn hc)
      · rw [if_pos ⟨rfl, hn⟩]
        rcases normalPhase_no_outer env hoq hp1 hp2 r oa d hdlen with
          ⟨e, he, hea, heb⟩ | ⟨d2, oa', hok, hl⟩
        · simp only [he]
          refine ⟨?_, ?_, ?_⟩
          · intro hc
            injection hc with h
            exact hea h
          · intro hc
            injection hc with h
            exact heb h
          · intro v dd hc
            exact Except.noConfusion hc
        · simp only [hok]
          exact ih (r + 1) d2 none oa' (by omega) (fun hc => absurd hc hn)
            (fun _ => ⟨fun _ => by omega, fun p hp => by cases hp⟩)
    | some p =>
      obtain ⟨hp1p, hppr⟩ := hlp2 p rfl
      have hdlen : d.length = r ∨ d.length = r + 1 := by
        cases hlpc : lp with
        | none => right; exact hnone hlpc
        | some q => left; exact (hsome q hlpc).2.2
      have hstep : runLoop env (n + 1) r d lp oa =
          (match loopingPhase env r (some p) d with
           | .error e => .error e
           | .ok (lp'', d') =>
             if lp'' = none ∧ n ≠ 0 then
               match normalPhase env r oa d' with
               | .error e => .error e
               | .ok (.ret value d2) => .ok (value, d2)
               | .ok (.next d2 oa') => runLoop env n (r + 1) d2 none oa'
             else runLoop env n (r + 1) d' lp'' oa) := by
        simp only [hrun, hdet, loopingPhase]
      rw [hstep]
      rcases loopingPhase_some env hp1 hp2 r p d hp1p hppr hdlen with
        ⟨e, he, hea, heb⟩ | ⟨lp', d', hok, hl, hlp'⟩
      · simp only [he]
        refine ⟨?_, ?_, ?_⟩
        · intro hc
          injection hc with h
          exact hea h
        · intro hc
          injection hc with h
          exact heb h
        · intro v dd hc
          exact Except.noConfusion hc
      · rcases hlp' with hlp' | hlp'
        · subst hlp'
          simp only [hok]
          rw [if_neg (by simp)]
          exact ih (r + 1) d' (some p) oa (by omega) (fun _ => by omega)
            (fun _ => ⟨by simp, fun q hq => by cases hq; exact ⟨by omega, by omega, hl⟩⟩)
        · subst hlp'
          simp only [hok]
          by_cases hn : n = 0
          · rw [if_neg (by simp [hn])]
            exact ih (r + 1) d' none oa (by omega) (fun _ => by omega)
              (fun hc => absurd hn hc)
          · rw [if_pos ⟨trivial, hn⟩]
            rcases normalPhase_no_outer env hoq hp1 hp2 r oa d' hl with
              ⟨e, he, hea, heb⟩ | ⟨d2, oa', hok2, hl2⟩
            · simp only [he]
              refine ⟨?_, ?_, ?_⟩
              · intro hc
                injection hc with h
                exact hea h
              · intro hc
                injection hc with h
                exact heb h
              · intro v dd hc
                exact Except.noConfusion hc
            · simp only [hok2]
              exact ih (r + 1) d2 none oa' (by omega) (fun hc => absurd hc hn)
                (fun _ => ⟨fun _ => by omega, fun q hq => by cases hq⟩)

/-- C1 counterexample: with an outer query whose latch evaluates to 1 at row 0,
`run` returns early with a 2-row arena, so `data.len() + row_offset` is not
`degree + 1` (here `2 + 0 ≠ 4 + 1`). -/
theorem run_early_return_counterexample :
    run (testEnv true (some true)) [()] = .ok (.complete [], [(), ()]) ∧
    (2 + (testEnv true (some true)).row_offset ≠ (testEnv true (some true)).degree + 1) := by
  constructor
  · rfl
  · decide

/-- C1 (amended): when no outer query is present (so `run` cannot return early
through the latch), `run` never fails the final arena-size assertion — its
`assert_eq!(data.len() + row_offset, degree + 1)` always holds — and whenever
it returns, the arena holds exactly `degree + 1` rows counting from
`row_offset`.  The fixed-point passes are assumed to preserve the number of
rows, which the source guarantees (they only write cells of existing rows). -/
theorem run_arena_size_no_outer {ρ V α σ : Type} [DecidableEq V]
    (env : VmEnv ρ V α σ) (data : List ρ)
    (hoq : env.hasOuterQuery = false)
    (hp1 : PreservesLength env.loopWithoutNext)
    (hp2 : PreservesLength env.loopWithNext)
    (hoff : env.row_offset ≤ env.degree) :
    run env data ≠ .error .assertion ∧
    (∀ v d, run env data = .ok (v, d) → d.length + env.row_offset = env.degree + 1) := by
  unfold run
  by_cases hlen : data.length ≠ 1
  · rw [if_pos hlen]
    exact ⟨by simp, by simp⟩
  · rw [if_neg hlen, if_neg (by omega)]
    simp only [ne_eq, Decidable.not_not] at hlen
    obtain ⟨h1, h2, h3⟩ := runLoop_invariant env hoq hp1 hp2 hoff
      (env.degree - env.row_offset + 1) 0 data none [] (by omega) (by omega)
      (fun _ => ⟨fun _ => by omega, fun p hp => by cases hp⟩)
    exact ⟨h1, h3⟩

/-- Witness for C1 (amended) at a concrete input. -/
theorem run_arena_size_no_outer_witness :
    run (testEnv false none) [()] ≠ .error .assertion :=
  (run_arena_size_no_outer (testEnv false none) [()] rfl
    (fun r d x h => by cases h; rfl) (fun r d x h => by cases h; rfl) (by decide)).1

/-- A concrete polynomial identity used by the C6 witness. -/
def c6Identity (i : Nat) : Identity (AlgebraicExpression Unit) :=
  { id := i
    kind := .Polynomial
    source := testSource
    left := { selector := some (.Number ()), expressions := [] }
    right := { selector := none, expressions := [] } }

/-- A concrete `Analyzed` value with three identities interleaved with other
statements in `source_order`. -/
def c6Analyzed : Analyzed Unit :=
  { definitions := []
    public_declarations := []
    intermediate_columns := []
    identities := [c6Identity 0, c6Identity 1, c6Identity 2]
    source_order := [.Definition "x", .Identity 0, .Identity 1,
      .PublicDeclaration "p", .Identity 2] }

/-- Witness for C6 at a concrete input: removing index 1 leaves surviving
`source_order` entries `Identity 0, Identity 1` — exactly the indices of the
two remaining identities. -/
theorem remove_identities_spec_witness :
    identityEntries (remove_identities [1] c6Analyzed).source_order =
      List.range (remove_identities [1] c6Analyzed).identities.length :=
  (remove_identities_spec [1] c6Analyzed (by decide)).2.2.1

/-! ## C10 — `run` requires exactly one row at entry -/

/-- C10: for every call of `VmProcessor::run` where the row arena does not hold
exactly one row, `run` fails on its initial `assert!(self.data.len() == 1)`
before processing any row (the assertion precedes the row loop). -/
theorem run_entry_assertion {ρ V α σ : Type} [DecidableEq V] (env : VmEnv ρ V α σ)
    (data : List ρ) (h : data.length ≠ 1) :
    run env data = .error .entryAssertion := by
  simp [run, h]

/-- Witness for C10 at a concrete input: a two-row arena fails the entry
assertion. -/
theorem run_entry_assertion_witness :
    run (testEnv false none) [(), ()] = .error .entryAssertion :=
  run_entry_assertion (testEnv false none) [(), ()] (by decide)

/-! ## C7 — the zero-strategy re-check of `compute_row` -/

/-- C7: in `compute_row`, the zero-strategy re-check runs iff no outer query is
present.  (a) With an outer query, when both fixed-point passes succeed the
function returns their result directly, skipping the re-check; (b) an
`underconstrained` panic implies no outer query was present; (c) without an
outer query, after successful fixed-point passes the function panics
`underconstrained` exactly when one of the two zero-strategy passes fails. -/
theorem compute_row_zero_check {ρ V α σ : Type} (env : VmEnv ρ V α σ)
    (r : Nat) (data : List ρ) :
    (env.hasOuterQuery = true →
      ∀ d1 a1 s1 d2 a2 s2, env.loopWithoutNext r data = .ok (d1, a1, s1) →
        env.loopWithNext r d1 = .ok (d2, a2, s2) →
        compute_row env r data = .ok (d2, a1 ++ a2)) ∧
    (compute_row env r data = .error .underconstrained → env.hasOuterQuery = false) ∧
    (env.hasOuterQuery = false →
      ∀ d1 a1 s1 d2 a2 s2, env.loopWithoutNext r data = .ok (d1, a1, s1) →
        env.loopWithNext r d1 = .ok (d2, a2, s2) →
        (compute_row env r data = .error .underconstrained ↔
          (∃ e, env.zeroWithoutNext r s1 d2 = .error e) ∨
          (env.zeroWithoutNext r s1 d2 = .ok () ∧
            ∃ e, env.zeroWithNext r s2 d2 = .error e))) := by
  refine ⟨?_, ?_, ?_⟩
  · intro hoq d1 a1 s1 d2 a2 s2 h1 h2
    simp [compute_row, h1, h2, hoq]
  · intro h
    by_contra hoq
    simp only [Bool.not_eq_false] at hoq
    unfold compute_row at h
    cases h1 : env.loopWithoutNext r data with
    | error e => simp [h1] at h
    | ok v1 =>
      obtain ⟨d1, a1, s1⟩ := v1
      cases h2 : env.loopWithNext r d1 with
      | error e => simp [h1, h2] at h
      | ok v2 =>
        obtain ⟨d2, a2, s2⟩ := v2
        simp [h1, h2, hoq] at h
  · intro hoq d1 a1 s1 d2 a2 s2 h1 h2
    simp only [compute_row, h1, h2, hoq, Bool.false_eq_true, if_false]
    cases h3 : env.zeroWithoutNext r s1 d2 with
    | error e => simp [h3]
    | ok u =>
      cases u
      cases h4 : env.zeroWithNext r s2 d2 with
      | error e => simp [h3, h4]
      | ok u => cases u; simp [h3, h4]

/-- Witness for C7 at a concrete input: in `testEnv false none` the fixed-point
passes succeed and the zero passes succeed, so `compute_row` does not panic
`underconstrained`. -/
theorem compute_row_zero_check_witness :
    ¬ (compute_row (testEnv false none) 0 [()] = .error .underconstrained) := by
  have h := (compute_row_zero_check (testEnv false none) 0 [()]).2.2 rfl
    [()] [] () [()] [] () rfl rfl
  intro hc
  rcases (h.mp hc) with ⟨e, he⟩ | ⟨_, e, he⟩ <;> exact Except.noConfusion he

/-! ## C5 — `Driver::resolve_ref` -/

/-- C5 counterexample: the claim states that a name that exists verbatim as a
top-level definition "is used without namespacing"; but when a namespace is
written together with such a name, `resolve_ref` hits
`assert!(namespace.is_none())` and panics instead of returning the name. -/
theorem resolve_ref_counterexample :
    resolve_ref ["x"] "N" (some "M") "x" = none ∧
    resolve_ref ["x"] "N" (some "M") "x" ≠ some "x" := by
  constructor <;> decide

/-- C5 (amended): `resolve_ref` follows the fixed priority — a `%`-prefixed
name or a name existing verbatim as a top-level definition stays unnamespaced
provided no namespace was written (with a written namespace the code asserts
and panics); otherwise, if no namespace was written and `Global.name` is
defined, it resolves to `Global.name`; otherwise it resolves to the written
(or else the current) namespace joined with the name. -/
theorem resolve_ref_spec (definitions : List String) (current_namespace : String)
    (namespace? : Option String) (name : String) :
    (startsWithPercent name ∨ name ∈ definitions →
      resolve_ref definitions current_namespace namespace? name =
        if namespace? = none then some name else none) ∧
    (¬ (startsWithPercent name ∨ name ∈ definitions) →
      namespace? = none → ("Global." ++ name) ∈ definitions →
      resolve_ref definitions current_namespace namespace? name =
        some ("Global." ++ name)) ∧
    (¬ (startsWithPercent name ∨ name ∈ definitions) →
      ¬ (namespace? = none ∧ ("Global." ++ name) ∈ definitions) →
      resolve_ref definitions current_namespace namespace? name =
        some ((namespace?.getD current_namespace) ++ "." ++ name)) := by
  refine ⟨?_, ?_, ?_⟩
  · intro h
    simp [resolve_ref, h]
  · intro h hns hg
    simp [resolve_ref, h, hns, hg]
  · intro h hng
    simp [resolve_ref, h, hng]

/-- Witness for C5 at a concrete input: with no written namespace and
`Global.y` defined, `y` resolves to `Global.y`. -/
theorem resolve_ref_spec_witness :
    resolve_ref ["Global.y"] "N" none "y" = some "Global.y" :=
  (resolve_ref_spec ["Global.y"] "N" none "y").2.1 (by decide) rfl (by decide)

/-! ## C9 — the order on `AlgebraicReference` -/

/-- `polynomialTypeRank` is injective. -/
theorem polynomialTypeRank_inj (a b : PolynomialType) :
    polynomialTypeRank a = polynomialTypeRank b ↔ a = b := by
  cases a <;> cases b <;> decide

/-- `cmpPolyID` returns `eq` exactly on equal IDs. -/
theorem cmpPolyID_eq_iff (a b : PolyID) : cmpPolyID a b = .eq ↔ a = b := by
  obtain ⟨aid, apt⟩ := a
  obtain ⟨bid, bpt⟩ := b
  simp only [cmpPolyID, cmpNat, cmpPolynomialType, PolyID.mk.injEq]
  split_ifs with h1 h2 <;> simp_all [← polynomialTypeRank_inj] <;> omega

/-- `cmpPolyID` returns `lt` exactly on the lexicographic strict order. -/
theorem cmpPolyID_lt_iff (a b : PolyID) :
    cmpPolyID a b = .lt ↔
      (a.id < b.id ∨ (a.id = b.id ∧
        polynomialTypeRank a.ptype < polynomialTypeRank b.ptype)) := by
  obtain ⟨aid, apt⟩ := a
  obtain ⟨bid, bpt⟩ := b
  simp only [cmpPolyID, cmpNat, cmpPolynomialType]
  split_ifs with h1 h2 <;> simp_all <;> omega

/-- `cmpPolyID` returns `gt` exactly on the reversed lexicographic order. -/
theorem cmpPolyID_gt_iff (a b : PolyID) :
    cmpPolyID a b = .gt ↔
      (b.id < a.id ∨ (a.id = b.id ∧
        polynomialTypeRank b.ptype < polynomialTypeRank a.ptype)) := by
  obtain ⟨aid, apt⟩ := a
  obtain ⟨bid, bpt⟩ := b
  simp only [cmpPolyID, cmpNat, cmpPolynomialType]
  split_ifs with h1 h2 <;> simp_all <;> omega

/-- Swapping the arguments of `cmpPolyID` exchanges `gt` and `lt`. -/
theorem cmpPolyID_swap (a b : PolyID) :
    cmpPolyID b a = .gt ↔ cmpPolyID a b = .lt := by
  rw [cmpPolyID_gt_iff, cmpPolyID_lt_iff]
  omega

/-- `cmpPolyID` is symmetric on `eq`. -/
theorem cmpPolyID_eq_symm (a b : PolyID) :
    cmpPolyID a b = .eq → cmpPolyID b a = .eq := by
  intro h
  rw [cmpPolyID_eq_iff] at h ⊢
  exact h.symm

/-- `cmpPolyID` is transitive on `lt`. -/
theorem cmpPolyID_lt_trans (a b c : PolyID) :
    cmpPolyID a b = .lt → cmpPolyID b c = .lt → cmpPolyID a c = .lt := by
  rw [cmpPolyID_lt_iff, cmpPolyID_lt_iff, cmpPolyID_lt_iff]
  omega

/-- C9 counterexample: the claim states the comparison is defined for all
references "including references carrying an array index"; but both `eq` and
`cmp` assert `index.is_none()` and panic on a reference with an array index. -/
theorem algebraic_reference_cmp_index_counterexample :
    eqAlgebraicReference
      { name := "a", poly_id := ⟨0, .Committed⟩, index := some 0, next := false }
      { name := "a", poly_id := ⟨0, .Committed⟩, index := some 0, next := false } = none ∧
    cmpAlgebraicReference
      { name := "a", poly_id := ⟨0, .Committed⟩, index := some 0, next := false }
      { name := "a", poly_id := ⟨0, .Committed⟩, index := some 0, next := false } = none := by
  constructor <;> decide

/-- C9 (amended): on references without an array index, `cmp` is a
deterministic total order that compares `poly_id` first and then `next`, and
`eq` holds iff both `poly_id` and `next` agree; references carrying an array
index make the comparison panic (previous theorem). -/
theorem algebraic_reference_order (a b c : AlgebraicReference)
    (ha : a.index = none) (hb : b.index = none) (hc : c.index = none) :
    (∃ o, cmpAlgebraicReference a b = some o) ∧
    (cmpAlgebraicReference a b = some .eq ↔
      a.poly_id = b.poly_id ∧ a.next = b.next) ∧
    (eqAlgebraicReference a b = some true ↔
      a.poly_id = b.poly_id ∧ a.next = b.next) ∧
    (cmpAlgebraicReference a b = some .lt ↔ cmpAlgebraicReference b a = some .gt) ∧
    (cmpAlgebraicReference a b = some .lt → cmpAlgebraicReference b c = some .lt →
      cmpAlgebraicReference a c = some .lt) := by
  have hidx : a.index = none ∧ b.index = none := ⟨ha, hb⟩
  have hidx2 : b.index = none ∧ a.index = none := ⟨hb, ha⟩
  have hidx3 : a.index = none ∧ c.index = none := ⟨ha, hc⟩
  have hidx4 : b.index = none ∧ c.index = none := ⟨hb, hc⟩
  refine ⟨?_, ?_, ?_, ?_, ?_⟩
  · unfold cmpAlgebraicReference
    cases h : cmpPolyID a.poly_id b.poly_id <;> simp [hidx]
  · unfold cmpAlgebraicReference
    cases h : cmpPolyID a.poly_id b.poly_id with
    | eq =>
      have hpid := (cmpPolyID_eq_iff a.poly_id b.poly_id).mp h
      simp only [hidx, and_self, if_true, Option.some.injEq, hpid, true_and]
      cases hn1 : a.next <;> cases hn2 : b.next <;> simp [cmpBool]
    | lt =>
      have hlt := (cmpPolyID_lt_iff a.poly_id b.poly_id).mp h
      simp only [Option.some.injEq]
      constructor
      · intro hcon; exact absurd hcon (by simp)
      · rintro ⟨hpid, -⟩
        rw [hpid] at hlt
        omega
    | gt =>
      have hgt := (cmpPolyID_gt_iff a.poly_id b.poly_id).mp h
      simp only [Option.some.injEq]
      constructor
      · intro hcon; exact absurd hcon (by simp)
      · rintro ⟨hpid, -⟩
        rw [hpid] at hgt
        omega
  · unfold eqAlgebraicReference
    simp [hidx]
  · cases h1 : cmpPolyID a.poly_id b.poly_id with
    | lt =>
      have h2 : cmpPolyID b.poly_id a.poly_id = .gt := (cmpPolyID_swap _ _).mpr h1
      simp [cmpAlgebraicReference, h1, h2, hidx, hidx2]
    | eq =>
      have h2 : cmpPolyID b.poly_id a.poly_id = .eq := cmpPolyID_eq_symm _ _ h1
      simp only [cmpAlgebraicReference, h1, h2, hidx, hidx2, and_self, if_true,
        Option.some.injEq]
      cases a.next <;> cases b.next <;> simp [cmpBool]
    | gt =>
      have h2 : cmpPolyID b.poly_id a.poly_id = .lt :=
        (cmpPolyID_swap b.poly_id a.poly_id).mp h1
      simp [cmpAlgebraicReference, h1, h2, hidx, hidx2]
  · intro hab hbc
    unfold cmpAlgebraicReference at hab hbc ⊢
    cases h1 : cmpPolyID a.poly_id b.poly_id <;> rw [h1] at hab <;>
      cases h2 : cmpPolyID b.poly_id c.poly_id <;> rw [h2] at hbc
    case lt.lt =>
      rw [cmpPolyID_lt_trans _ _ _ h1 h2]
    case lt.eq =>
      have hac : cmpPolyID a.poly_id c.poly_id = .lt := by
        rw [← (cmpPolyID_eq_iff _ _).mp h2]
        exact h1
      rw [hac]
    case lt.gt => simp at hbc
    case eq.lt =>
      have hac : cmpPolyID a.poly_id c.poly_id = .lt := by
        rw [(cmpPolyID_eq_iff _ _).mp h1]
        exact h2
      rw [hac]
    case eq.eq =>
      have hac : cmpPolyID a.poly_id c.poly_id = .eq := by
        rw [cmpPolyID_eq_iff]
        rw [(cmpPolyID_eq_iff _ _).mp h1, (cmpPolyID_eq_iff _ _).mp h2]
      rw [hac]
      simp only [hidx, hidx4, hidx3, and_self, if_true, Option.some.injEq] at hab hbc ⊢
      cases ha2 : a.next <;> cases hb2 : b.next <;> cases hc2 : c.next <;>
        simp_all [cmpBool]
    case eq.gt => simp at hbc
    case gt.lt => simp at hab
    case gt.eq => simp at hab
    case gt.gt => simp at hab

/-- Witness for C9 at concrete inputs: two index-free references with the
same `poly_id` and `next` flag (but different names) compare equal. -/
theorem algebraic_reference_order_witness :
    eqAlgebraicReference
      { name := "a", poly_id := ⟨0, .Committed⟩, index := none, next := false }
      { name := "b", poly_id := ⟨0, .Committed⟩, index := none, next := false } =
      some true :=
  ((algebraic_reference_order
      { name := "a", poly_id := ⟨0, .Committed⟩, index := none, next := false }
      { name := "b", poly_id := ⟨0, .Committed⟩, index := none, next := false }
      { name := "b", poly_id := ⟨0, .Committed⟩, index := none, next := false }
      rfl rfl rfl).2.2.1).mpr ⟨rfl, rfl⟩

/-! ## C2 — `append_polynomial_identity` -/

/-- C2: on an `Analyzed` value with an empty identity vector,
`append_polynomial_identity` assigns ID `1` and pushes the new identity (a
`Polynomial`-kind identity with the expression as left selector and empty
right side) at index `0` of the identities vector — but pushes
`StatementIdentifier::Identity(1)` (the ID) onto `source_order`, although the
`Identity` payload is documented as an index into the identities vector (and
`handle_statement` in `pil_analyzer.rs` pushes `identities.len()` there). -/
theorem append_polynomial_identity_id_vs_index :
    (append_polynomial_identity emptyAnalyzed (.Number ()) testSource).1 = 1 ∧
    (append_polynomial_identity emptyAnalyzed (.Number ()) testSource).2.identities =
      [{ id := 1
         kind := .Polynomial
         source := testSource
         left := { selector := some (.Number ()), expressions := [] }
         right := { selector := none, expressions := [] } }] ∧
    (append_polynomial_identity emptyAnalyzed (.Number ()) testSource).2.source_order =
      [.Identity 1] ∧
    (1 : Nat) ≠
      (append_polynomial_identity emptyAnalyzed (.Number ()) testSource).2.identities.length
        - 1 := by
  refine ⟨rfl, rfl, rfl, by decide⟩

end Powdr
